import Mathlib

/-!
Verification of the libcubescript core (src/cubescript.cc) against its
natural-language specification.

This file is a shallow embedding: the C functions relevant to the claims are
translated into executable Lean definitions, operating on
- strings as `List Char` (8-bit clean byte strings; reads past the end of a
  NUL-terminated C string are modelled by `charAt`, which yields the NUL
  character for out-of-range indices, exactly as reading the terminator or
  the bytes of a longer buffer would),
- machine integers as `Nat`/`Int` with explicit reduction mod 2^32 / 2^64
  where the C code truncates,
- C floating point values as exact rationals (ℚ); the places where this is an
  idealisation are marked in the individual doc comments.

The structure of the file: section 1 models the character-level helpers and
the libc number conversions used by the source (strtoul/strtod/snprintf);
section 2 models the identifier and variable machinery; section 3 models the
bytecode refcounting; section 4 models the compiler output and the VM
(runcode) for the instruction subset exercised by the claims; the theorems
for the individual claims follow their models.
-/

namespace LibCS

set_option allowUnsafeReducibility true

attribute [local semireducible] Rat.mul Rat.add Rat.sub Rat.inv Rat.ofScientific

/-! ## Section 1: characters, digits and libc conversions -/

/-- Character of a byte string at index i; out-of-range indices give the NUL
character, modelling the NUL terminator / trailing bytes of a C string. -/
def charAt (s : List Char) (i : Nat) : Char :=
  (s.drop i).headD '\x00'

/-- Model of C isdigit (ASCII/C locale). -/
def isdigitC (c : Char) : Bool :=
  '0' ≤ c && c ≤ '9'

/-- Model of C isspace (ASCII/C locale), as used by strtoul/strtod. -/
def isspaceC (c : Char) : Bool :=
  c == ' ' || c == '\t' || c == '\n' || c == '\x0b' || c == '\x0c' || c == '\r'

/-- Value of a digit character in the given base (hex letters included),
none when the character is not a digit of that base. -/
def digitValB (base : Nat) (c : Char) : Option Nat :=
  if isdigitC c then (if c.toNat - 48 < base then some (c.toNat - 48) else none)
  else if 'a' ≤ c && c ≤ 'f' then (if c.toNat - 87 < base then some (c.toNat - 87) else none)
  else if 'A' ≤ c && c ≤ 'F' then (if c.toNat - 55 < base then some (c.toNat - 55) else none)
  else none

/-- Accumulate leading base-`base` digits of the list onto `acc`
(the digit-consuming loop shared by the strtoul/strtod models); returns the
accumulated value and the unconsumed remainder of the list. -/
def decAccum (base : Nat) : List Char → Nat → Nat × List Char
  | [], acc => (acc, [])
  | c :: cs, acc =>
    match digitValB base c with
    | some d => decAccum base cs (acc * base + d)
    | none => (acc, c :: cs)

/-- Two's-complement reinterpretation of a Nat as a 32-bit signed int; this is
the meaning of the C cast int(...) applied to an unsigned value. -/
def toInt32 (n : Nat) : Int :=
  if n % 2 ^ 32 < 2 ^ 31 then ((n % 2 ^ 32 : Nat) : Int)
  else ((n % 2 ^ 32 : Nat) : Int) - 2 ^ 32

/-- ULONG_MAX on the 64-bit platforms the source targets. -/
def ulongMax : Nat := 2 ^ 64 - 1

/-- Core of strtoul with base 0 applied to the list after whitespace and sign
have been stripped: base detection (0x/0X prefix selects hex, a leading 0
selects octal, otherwise decimal) followed by digit accumulation. Returns the
magnitude and the number of characters consumed (0 when no conversion could
be performed, as with a C endptr left equal to the input pointer). -/
def strtoul0core (r2 : List Char) : Nat × Nat :=
  if charAt r2 0 == '0' && (charAt r2 1 == 'x' || charAt r2 1 == 'X')
      && (digitValB 16 (charAt r2 2)).isSome then
    let p := decAccum 16 (r2.drop 2) 0
    (p.1, 2 + ((r2.drop 2).length - p.2.length))
  else if charAt r2 0 == '0' then
    let p := decAccum 8 r2 0
    (p.1, r2.length - p.2.length)
  else
    let p := decAccum 10 r2 0
    (p.1, r2.length - p.2.length)

/-- Model of C strtoul(s, &end, 0): skip whitespace, optional sign, base
detection per the 0/0x prefix, digit accumulation with saturation at
ULONG_MAX, and (for a leading minus) negation in unsigned arithmetic.
Returns the value together with the index of the end pointer (0 when no
conversion was performed). -/
def strtoulP (s : List Char) : Nat × Nat :=
  let ws := (s.takeWhile isspaceC).length
  let r1 := s.drop ws
  let neg : Bool := charAt r1 0 == '-'
  let signLen : Nat := if charAt r1 0 == '-' || charAt r1 0 == '+' then 1 else 0
  let r2 := r1.drop signLen
  let mc := strtoul0core r2
  if mc.2 == 0 then (0, 0)
  else
    let v0 := if mc.1 > ulongMax then ulongMax else mc.1
    let v := if neg then (2 ^ 64 - v0) % 2 ^ 64 else v0
    (v, ws + signLen + mc.2)

/-- Model of parseint (src/cubescript.cc line 59): the C cast to int of
strtoul with base 0, i.e. the value reduced to a 32-bit two's-complement
integer. -/
def parseint (s : List Char) : Int :=
  toInt32 (strtoulP s).1

/-- Model of cs_parse_int (src/cubescript.cc line 63). -/
def cs_parse_int (s : List Char) : Int :=
  if s.isEmpty then 0 else parseint s

/-- Fuelled helper for decDigits; the fuel is structural so that the kernel
can evaluate it, and any fuel of at least n steps gives the digits of n. -/
def decDigitsF : Nat → Nat → List Nat
  | 0, n => [n]
  | f + 1, n => if n < 10 then [n] else decDigitsF f (n / 10) ++ [n % 10]

/-- Big-endian decimal digit list of a natural number (the digits printf %d
or %u emits for it). -/
def decDigits (n : Nat) : List Nat :=
  decDigitsF n n

/-- ASCII character of a decimal digit. -/
def digitChar (d : Nat) : Char :=
  Char.ofNat (48 + d)

/-- Decimal digit characters of a natural number. -/
def natDecStr (n : Nat) : List Char :=
  (decDigits n).map digitChar

/-- Model of intformat/intstr (src/cubescript.cc lines 80 and 87):
snprintf %d of a 32-bit signed integer, i.e. an optional minus sign followed
by the decimal digits of the magnitude (the 256-byte buffer can never be
exceeded by a 32-bit value, so truncation does not occur). -/
def intstr (v : Int) : List Char :=
  if v < 0 then '-' :: natDecStr v.natAbs else natDecStr v.toNat

/-- Model of cs_check_num (src/cubescript.cc line 106): a name is treated as
a number when it starts with a digit, or with a sign followed by a digit or
by a dot-and-digit, or with a dot followed by a digit. -/
def cs_check_num (s : List Char) : Bool :=
  if isdigitC (charAt s 0) then true
  else if charAt s 0 == '+' || charAt s 0 == '-' then
    isdigitC (charAt s 1) || (charAt s 1 == '.' && isdigitC (charAt s 2))
  else if charAt s 0 == '.' then
    isdigitC (charAt s 1)
  else false

/-- Rational power of ten with an integer exponent. -/
def qpow10 (z : Int) : ℚ :=
  if 0 ≤ z then (10 : ℚ) ^ z.toNat else ((10 : ℚ) ^ (-z).toNat)⁻¹

/-- Rational power of two with an integer exponent. -/
def qpow2 (z : Int) : ℚ :=
  if 0 ≤ z then (2 : ℚ) ^ z.toNat else ((2 : ℚ) ^ (-z).toNat)⁻¹

/-- Does the list after a 0x prefix start a hexadecimal floating subject
sequence (at least one hex digit, possibly after a leading point)? -/
def hexFloatStart (rest : List Char) : Bool :=
  (digitValB 16 (charAt rest 0)).isSome
    || (charAt rest 0 == '.' && (digitValB 16 (charAt rest 1)).isSome)

/-- Optional exponent part of a C floating literal: given the list at the
candidate exponent marker and the expected marker letters, returns the signed
exponent and the number of characters consumed (0 when the exponent part is
absent or incomplete, in which case it is not part of the subject sequence).
The exponent digits are always decimal. -/
def expPart (lo hi : Char) (r : List Char) : Int × Nat :=
  if charAt r 0 == lo || charAt r 0 == hi then
    let esLen : Nat := if charAt r 1 == '-' || charAt r 1 == '+' then 1 else 0
    let eneg : Bool := charAt r 1 == '-'
    let p := decAccum 10 (r.drop (1 + esLen)) 0
    let ndig := (r.drop (1 + esLen)).length - p.2.length
    if ndig == 0 then (0, 0)
    else ((if eneg then -(p.1 : Int) else (p.1 : Int)), 1 + esLen + ndig)
  else (0, 0)

/-- Digit run with an optional embedded decimal point, in the given base:
returns integer-part value, fraction value, fraction length, whether the
point was consumed, and total characters consumed. -/
def mantissaPart (base : Nat) (r : List Char) : Nat × Nat × Nat × Bool × Nat :=
  let p1 := decAccum base r 0
  let ilen := r.length - p1.2.length
  if charAt p1.2 0 == '.' then
    let p2 := decAccum base (p1.2.drop 1) 0
    let flen := (p1.2.drop 1).length - p2.2.length
    if ilen + flen == 0 then (0, 0, 0, false, 0)
    else (p1.1, p2.1, flen, true, ilen + 1 + flen)
  else
    (p1.1, 0, 0, false, ilen)

/-- Model of C strtod(s, &end): whitespace, sign, then either a hexadecimal
floating subject (0x prefix, hex mantissa, optional binary p-exponent) or a
decimal subject (decimal mantissa, optional e-exponent). The value returned
is the exact rational value of the subject sequence; the rounding of that
value to the nearest IEEE binary64 is not modelled, so the model is exact
precisely on inputs whose value is representable (all inputs this file
evaluates it on are). Returns the value and the end-pointer index
(0 when no conversion was performed). Infinity/NaN forms are not modelled. -/
def strtodP (s : List Char) : ℚ × Nat :=
  let ws := (s.takeWhile isspaceC).length
  let r1 := s.drop ws
  let neg : Bool := charAt r1 0 == '-'
  let signLen : Nat := if charAt r1 0 == '-' || charAt r1 0 == '+' then 1 else 0
  let r2 := r1.drop signLen
  let sgn : ℚ := if neg then -1 else 1
  if charAt r2 0 == '0' && (charAt r2 1 == 'x' || charAt r2 1 == 'X')
      && hexFloatStart (r2.drop 2) then
    let m := mantissaPart 16 (r2.drop 2)
    let e := expPart 'p' 'P' ((r2.drop 2).drop m.2.2.2.2)
    let v : ℚ := sgn * ((m.1 : ℚ) + (m.2.1 : ℚ) / (16 : ℚ) ^ m.2.2.1) * qpow2 e.1
    (v, ws + signLen + 2 + m.2.2.2.2 + e.2)
  else
    let m := mantissaPart 10 r2
    if m.2.2.2.2 == 0 then (0, 0)
    else
      let e := expPart 'e' 'E' (r2.drop m.2.2.2.2)
      let v : ℚ := sgn * ((m.1 : ℚ) + (m.2.1 : ℚ) / (10 : ℚ) ^ m.2.2.1) * qpow10 e.1
      (v, ws + signLen + m.2.2.2.2 + e.2)

/-- Model of parsefloat (src/cubescript.cc line 68): strtod, except that when
strtod consumed nothing past a leading zero of a would-be hex literal (the
Windows workaround in the source), the value falls back to parseint. The
conversion of the double to float is modelled as exact (see strtodP). -/
def parsefloat (s : List Char) : ℚ :=
  let ve := strtodP s
  if ve.1 ≠ 0 || ve.2 == 0 || (charAt s ve.2 ≠ 'x' && charAt s ve.2 ≠ 'X') then ve.1
  else (parseint s : ℚ)

/-- Model of cs_parse_float (src/cubescript.cc line 75). -/
def cs_parse_float (s : List Char) : ℚ :=
  if s.isEmpty then 0 else parsefloat s

/-- Shared tail of the sign-zero and zero cases of the string cs_get_bool
(the case '0' body at src/cubescript.cc line 1525): C-style integer parse
truncated to 32 bits; nonzero means true; on zero, a float re-parse decides
when the integer parse stopped at an exponent or fraction mark, anything
else means false. -/
def cs_get_bool_zero (s : List Char) : Bool :=
  let ve := strtoulP s
  if toInt32 ve.1 ≠ 0 then true
  else if charAt s ve.2 == 'e' || charAt s ve.2 == '.' then
    decide (cs_parse_float s ≠ 0)
  else false

/-- Model of cs_get_bool on strings (src/cubescript.cc line 1510); the
switch on the first character (with the sign cases falling through to the
zero case) is written as an if chain. -/
def cs_get_bool_str (s : List Char) : Bool :=
  if s.isEmpty then false
  else if charAt s 0 == '+' || charAt s 0 == '-' then
    if charAt s 1 == '0' then cs_get_bool_zero s
    else if charAt s 1 == '.' then
      !isdigitC (charAt s 2) || decide (cs_parse_float s ≠ 0)
    else true
  else if charAt s 0 == '0' then cs_get_bool_zero s
  else if charAt s 0 == '.' then
    !isdigitC (charAt s 1) || decide (cs_parse_float s ≠ 0)
  else if charAt s 0 == '\x00' then false
  else true

/-! ### Digit-list lemmas used for the number round trip -/

theorem decDigitsF_eq_cons (f : Nat) : ∀ n, n ≤ f →
    ∃ d ds, decDigitsF f n = d :: ds ∧ d < 10 ∧ (n ≠ 0 → d ≠ 0) ∧ ∀ x ∈ ds, x < 10 := by
  induction f with
  | zero =>
    intro n hn
    have : n = 0 := by omega
    subst this
    exact ⟨0, [], rfl, by omega, fun h => absurd rfl h, by simp⟩
  | succ f ih =>
    intro n hn
    rw [decDigitsF]
    split
    · exact ⟨n, [], rfl, by omega, fun h => h, by simp⟩
    · rename_i h
      obtain ⟨d, ds, hds, hd, hne, hmem⟩ := ih (n / 10) (by omega)
      refine ⟨d, ds ++ [n % 10], by rw [hds]; rfl, hd, fun _ => hne (by omega), ?_⟩
      intro x hx
      rcases List.mem_append.1 hx with hx | hx
      · exact hmem x hx
      · simp at hx; omega

theorem decDigits_eq_cons (n : Nat) :
    ∃ d ds, decDigits n = d :: ds ∧ d < 10 ∧ (n ≠ 0 → d ≠ 0) ∧ ∀ x ∈ ds, x < 10 :=
  decDigitsF_eq_cons n n (le_refl n)

theorem decDigitsF_foldl (f : Nat) : ∀ n, n ≤ f → ∀ a,
    (decDigitsF f n).foldl (fun x d => x * 10 + d) a =
      a * 10 ^ (decDigitsF f n).length + n := by
  induction f with
  | zero =>
    intro n hn a
    have : n = 0 := by omega
    subst this
    simp [decDigitsF, List.foldl]
  | succ f ih =>
    intro n hn a
    rw [decDigitsF]
    split
    · simp [List.foldl]
    · rename_i h
      rw [List.foldl_append, List.length_append, ih (n / 10) (by omega) a]
      simp only [List.foldl, List.length_cons, List.length_nil]
      ring_nf
      omega

theorem decDigits_foldl (n a : Nat) :
    (decDigits n).foldl (fun x d => x * 10 + d) a = a * 10 ^ (decDigits n).length + n :=
  decDigitsF_foldl n n (le_refl n) a

theorem digitChar_toNat (d : Nat) (hd : d < 10) : (digitChar d).toNat = 48 + d := by
  interval_cases d <;> decide

theorem digitValB_digitChar (b d : Nat) (hd : d < 10) (hb : d < b) :
    digitValB b (digitChar d) = some d := by
  have h1 : isdigitC (digitChar d) = true := by interval_cases d <;> decide
  simp only [digitValB, h1, if_true, digitChar_toNat d hd, Nat.add_sub_cancel_left,
    if_pos hb]

theorem digitChar_not_space (d : Nat) (hd : d < 10) : isspaceC (digitChar d) = false := by
  interval_cases d <;> decide

theorem digitChar_beq (d : Nat) (hd : d < 10) (c : Char)
    (hc : c.toNat < 48 ∨ 57 < c.toNat) : (digitChar d == c) = false := by
  have : digitChar d ≠ c := by
    intro h
    have h2 : (digitChar d).toNat = c.toNat := by rw [h]
    rw [digitChar_toNat d hd] at h2
    omega
  simpa using this

theorem decAccum_map_digitChar (b : Nat) (ds : List Nat)
    (hds : ∀ d ∈ ds, d < 10 ∧ d < b) (a : Nat) :
    decAccum b (ds.map digitChar) a = (ds.foldl (fun x d => x * b + d) a, []) := by
  induction ds generalizing a with
  | nil => rfl
  | cons d ds ih =>
    have h1 := hds d (by simp)
    rw [List.map_cons, decAccum, digitValB_digitChar b d h1.1 h1.2]
    exact ih (fun x hx => hds x (by simp [hx])) _

/-! ### Claim C1, integer part -/

theorem charAt_cons_zero (c : Char) (cs : List Char) : charAt (c :: cs) 0 = c := rfl

theorem takeWhile_nil_of_head (p : Char → Bool) (c : Char) (cs : List Char)
    (h : p c = false) : (c :: cs).takeWhile p = [] := by
  simp [List.takeWhile, h]

theorem natDecStr_facts (n : Nat) (h1 : n ≠ 0) :
    ((natDecStr n).takeWhile isspaceC = [] ∧ (charAt (natDecStr n) 0 == '-') = false ∧
      (charAt (natDecStr n) 0 == '+') = false ∧ (charAt (natDecStr n) 0 == '0') = false) ∧
      decAccum 10 (natDecStr n) 0 = (n, []) ∧ (natDecStr n).length ≠ 0 := by
  obtain ⟨d, ds, hds, hd, hne, hmem⟩ := decDigits_eq_cons n
  have hd0 : d ≠ 0 := hne h1
  have hcons : natDecStr n = digitChar d :: ds.map digitChar := by
    rw [natDecStr, hds, List.map_cons]
  have hzero : (digitChar d == '0') = false := by
    have : digitChar d ≠ '0' := by
      intro h
      have h2 : (digitChar d).toNat = ('0' : Char).toNat := by rw [h]
      rw [digitChar_toNat d hd] at h2
      have : ('0' : Char).toNat = 48 := rfl
      omega
    simpa using this
  refine ⟨⟨?_, ?_, ?_, ?_⟩, ?_, ?_⟩
  · rw [hcons, takeWhile_nil_of_head _ _ _ (digitChar_not_space d hd)]
  · rw [hcons, charAt_cons_zero]
    exact digitChar_beq d hd '-' (by left; decide)
  · rw [hcons, charAt_cons_zero]
    exact digitChar_beq d hd '+' (by left; decide)
  · rw [hcons, charAt_cons_zero, hzero]
  · have step : decAccum 10 ((decDigits n).map digitChar) 0 =
        ((decDigits n).foldl (fun x d => x * 10 + d) 0, []) := by
      apply decAccum_map_digitChar
      intro x hx
      rw [hds] at hx
      rcases List.mem_cons.1 hx with hx | hx
      · omega
      · have := hmem x hx; omega
    rw [natDecStr, step, decDigits_foldl]
    simp
  · rw [hcons]; simp

/-- Helper: parsing the pure decimal digit string of a nonzero natural that
fits in an unsigned long with the strtoul model yields that natural back. -/
theorem strtoulP_natDecStr (n : Nat) (h1 : n ≠ 0) (h2 : n ≤ ulongMax) :
    strtoulP (natDecStr n) = (n, (natDecStr n).length) := by
  obtain ⟨⟨hws, hm, hp, hz⟩, hdec, hlen⟩ := natDecStr_facts n h1
  rw [strtoulP]
  simp only [hws, List.length_nil, List.drop_zero, hm, hp, Bool.or_self,
    Bool.false_eq_true, if_false, ite_false, List.drop_zero, strtoul0core, hz,
    Bool.false_and, hdec, List.length_nil, Nat.sub_zero]
  rw [if_neg (by simpa using hlen), if_neg (by omega)]
  simp

theorem toInt32_of_neg (m : Nat) (hm1 : m ≠ 0) (hm2 : m ≤ 2 ^ 31) :
    toInt32 ((2 ^ 64 - m) % 2 ^ 64) = -(m : Int) := by
  rw [toInt32, if_neg (by omega)]
  omega

/-- Claim C1 (amended, integer half): for every value of the 32-bit int type,
printing it with intstr (snprintf %d) and reparsing with parseint
(the int cast of strtoul with base 0) yields the value back. -/
theorem parseint_intstr_roundtrip (v : Int) (h1 : -(2 ^ 31) ≤ v) (h2 : v < 2 ^ 31) :
    parseint (intstr v) = v := by
  rcases lt_trichotomy v 0 with hv | hv | hv
  · -- negative: a minus sign, then the decimal digits of the magnitude
    have hm1 : v.natAbs ≠ 0 := by omega
    have hm2 : v.natAbs ≤ 2 ^ 31 := by omega
    have hstr : intstr v = '-' :: natDecStr v.natAbs := by
      rw [intstr, if_pos hv]
    obtain ⟨⟨hws, hm, hp, hz⟩, hdec, hlen⟩ := natDecStr_facts v.natAbs hm1
    have hws2 : ('-' :: natDecStr v.natAbs).takeWhile isspaceC = [] :=
      takeWhile_nil_of_head _ _ _ (by decide)
    have hc0 : charAt ('-' :: natDecStr v.natAbs) 0 = '-' := rfl
    rw [parseint, hstr, strtoulP]
    simp only [hws2, List.length_nil, List.drop_zero, hc0, beq_self_eq_true,
      Bool.true_or, ite_true, List.drop_one, List.tail_cons]
    simp only [strtoul0core, hz, Bool.false_and, Bool.false_eq_true, if_false,
      ite_false, hdec, List.length_nil, Nat.sub_zero]
    rw [if_neg (by simpa using hlen), if_neg (show ¬ v.natAbs > ulongMax by
      rw [ulongMax]; omega)]
    simp only [ite_true]
    rw [toInt32_of_neg v.natAbs hm1 hm2]
    omega
  · rw [hv]; decide
  · -- positive
    have hn1 : v.toNat ≠ 0 := by omega
    have hstr : intstr v = natDecStr v.toNat := by
      rw [intstr, if_neg (by omega)]
    rw [parseint, hstr, strtoulP_natDecStr v.toNat hn1 (by rw [ulongMax]; omega)]
    rw [toInt32]
    have h32 : v.toNat % 2 ^ 32 = v.toNat := Nat.mod_eq_of_lt (by omega)
    simp only [h32]
    rw [if_pos (by omega)]
    omega

/-! ### Float formatting (floatformat / floatstr) and the float round trip -/

/-- Truncation of a rational toward zero (the C cast of a floating value to
int, defined when the value fits the int range). -/
def truncQ (q : ℚ) : Int :=
  if 0 ≤ q then ⌊q⌋ else -⌊-q⌋

/-- Round a rational to the nearest integer, ties to even (the IEEE rounding
a correctly rounded printf applies to the scaled significand). -/
def rhe (x : ℚ) : Int :=
  if x - ⌊x⌋ < 1 / 2 then ⌊x⌋
  else if x - ⌊x⌋ > 1 / 2 then ⌊x⌋ + 1
  else if ⌊x⌋ % 2 = 0 then ⌊x⌋ else ⌊x⌋ + 1

/-- Number of decimal digits of a natural number. -/
def digits10 (n : Nat) : Nat :=
  (decDigits n).length

/-- Decimal exponent of a positive rational: the d with 10^d ≤ q < 10^(d+1),
computed from the digit counts of numerator and denominator. -/
def decExp (q : ℚ) : Int :=
  let a : Int := digits10 q.num.natAbs
  let b : Int := digits10 q.den
  if qpow10 (a - b) ≤ q then a - b else a - b - 1

/-- Strip trailing zero digits. -/
def stripZ (ds : List Nat) : List Nat :=
  (ds.reverse.dropWhile (fun d => d == 0)).reverse

/-- Exponent suffix of printf %e/%g: the letter e, an explicit sign, and the
exponent with at least two digits. -/
def expChars (d : Int) : List Char :=
  let m := d.natAbs
  let ds := if m < 10 then [0, m] else decDigits m
  'e' :: (if d < 0 then '-' else '+') :: ds.map digitChar

/-- Model of printf("%.7g", v): the value rounded to seven significant
decimal digits (correctly, ties to even — the behaviour of the glibc printf
the source is built against), printed in fixed or scientific form per the
%g exponent rule, with trailing zeros and a bare decimal point removed. -/
def fmt7g (q : ℚ) : List Char :=
  if q = 0 then ['0']
  else
    let aq := |q|
    let d0 := decExp aq
    let x0 := rhe (aq / qpow10 (d0 - 6))
    let x : Int := if x0 = 10 ^ 7 then 10 ^ 6 else x0
    let d : Int := if x0 = 10 ^ 7 then d0 + 1 else d0
    let ds := decDigits x.toNat
    let sign : List Char := if q < 0 then ['-'] else []
    if -4 ≤ d ∧ d < 7 then
      if 0 ≤ d then
        let ip := ds.take (d.toNat + 1)
        let fp := stripZ (ds.drop (d.toNat + 1))
        sign ++ ip.map digitChar ++
          (if fp.isEmpty then [] else '.' :: fp.map digitChar)
      else
        let zs : List Nat := List.replicate (-(d + 1)).toNat 0
        let fp := stripZ (zs ++ ds)
        sign ++ ['0'] ++ (if fp.isEmpty then [] else '.' :: fp.map digitChar)
    else
      let fp := stripZ (ds.drop 1)
      sign ++ [digitChar ds.headI] ++
        (if fp.isEmpty then [] else '.' :: fp.map digitChar) ++ expChars d

/-- Model of printf("%.1f", v) for the only case the source reaches it
(floatformat chooses %.1f exactly when v == int(v), i.e. when the value is
integral): the integer digits followed by ".0". -/
def fmtF1 (q : ℚ) : List Char :=
  (if q < 0 then ['-'] else []) ++ natDecStr q.num.natAbs ++ ['.', '0']

/-- Model of floatformat/floatstr (src/cubescript.cc lines 83 and 93):
snprintf with "%.1f" when v == int(v) (the int cast is modelled as exact
rational truncation; the comparison only succeeds on integral values) and
with "%.7g" otherwise. -/
def floatformat (q : ℚ) : List Char :=
  if q = (truncQ q : ℚ) then fmtF1 q else fmt7g q

/-- Model of floatstr (src/cubescript.cc line 93). -/
def floatstr (q : ℚ) : List Char :=
  floatformat q

/-- The value is representable as an IEEE binary32 float: an integer
significand below 2^24 scaled by a power of two in the binary32 range. -/
def float32Repr (q : ℚ) : Prop :=
  ∃ m e : Int, |m| < 2 ^ 24 ∧ -149 ≤ e ∧ e ≤ 104 ∧ q = (m : ℚ) * qpow2 e

/-- Claim C1 counterexample: the float 1 + 2^-23 (the binary32 successor of
1.0) is not recovered by parsing its canonical string form. The %.7g format
used by floatformat keeps only seven significant digits, which renders this
value as "1"; the value parses back as 1, not 1 + 2^-23, so
parse(format(n)) = n fails for floats. (Both 1 + 2^-23 and 1 are exactly
representable at every stage, so the exact-rational model coincides with the
C float/double computation on this input.) -/
theorem c1_float_roundtrip_fails :
    float32Repr (8388609 / 8388608 : ℚ) ∧
      floatstr (8388609 / 8388608 : ℚ) = ['1'] ∧
      parsefloat (floatstr (8388609 / 8388608 : ℚ)) = 1 ∧
      parsefloat (floatstr (8388609 / 8388608 : ℚ)) ≠ (8388609 / 8388608 : ℚ) := by
  refine ⟨⟨8388609, -23, by norm_num, by norm_num, by norm_num, by decide⟩,
    ?_, ?_, ?_⟩
  · decide
  · decide
  · decide

/-- Claim C1 witness for the amended integer round trip, at the extreme
negative value of the int type. -/
theorem parseint_intstr_roundtrip_witness :
    (-(2 ^ 31) ≤ (-2147483648 : Int)) ∧ ((-2147483648 : Int) < 2 ^ 31) ∧
      parseint (intstr (-2147483648)) = -2147483648 :=
  ⟨by decide, by decide,
    parseint_intstr_roundtrip (-2147483648) (by decide) (by decide)⟩

/-! ## Section 2: identifiers and variables -/

/-- Diagnostics and side events observable from the modelled operations.
Messages are represented by tags; the corresponding format strings of the
source are quoted in the doc comments of the emitting functions. -/
inductive Diag where
  | numberNotName
  | rangeMsg
  | readonlyMsg
  | persistMsg
  | unknownCommand
  | recursionLimit
  | changed
deriving DecidableEq, Repr

/-- Modelled from the spec: the per-identifier flag bits PERSIST, OVERRIDE,
HEX, READONLY, OVERRIDDEN, UNKNOWN, ARG (their numeric values live in the
missing old cubescript.hh header; only bit identity matters, so the flag
word is modelled as a structure of booleans). -/
structure IdFlags where
  persist : Bool := false
  override : Bool := false
  hex : Bool := false
  readonly : Bool := false
  overridden : Bool := false
  unknown : Bool := false
  arg : Bool := false
deriving DecidableEq, Repr

/-- Identifier kinds relevant to new_ident (the full source also has
float/string variables and commands; they behave identically with respect to
the claims about new_ident). -/
inductive IdKind where
  | aliasK (flags : IdFlags)
  | varK
  | commandK
deriving DecidableEq, Repr

/-- The name-to-identifier table (spec section 4.4); insertion order models
the dense index assignment of add_ident. -/
structure ITab where
  tab : List (List Char × IdKind)
deriving DecidableEq, Repr

/-- Lookup by name (idents.at in the source). -/
def idents_at (st : ITab) (name : List Char) : Option IdKind :=
  (st.tab.find? (fun p => p.1 == name)).map (fun p => p.2)

/-- Model of CsState::new_ident (src/cubescript.cc line 305): an existing
identifier is returned as is; otherwise a numeric-looking name (cs_check_num)
is rejected with the diagnostic "number %s is not a valid identifier name"
and the dummy identifier (modelled as none) is returned; otherwise an alias
is created and entered in the table (add_ident is declared in the missing
header; modelled from the spec as inserting at the next free index). -/
def new_ident (st : ITab) (name : List Char) (flags : IdFlags) :
    Option (List Char × IdKind) × ITab × List Diag :=
  match idents_at st name with
  | some k => (some (name, k), st, [])
  | none =>
    if cs_check_num name then (none, st, [Diag.numberNotName])
    else (some (name, IdKind.aliasK flags),
      ⟨st.tab ++ [(name, IdKind.aliasK flags)]⟩, [])

/-- The rejection condition exactly as the claim words it: a name beginning
with a digit, or with one of plus, minus or dot followed by a digit (from the
claim, to be compared against the source's cs_check_num). -/
def c8ClaimedCond (s : List Char) : Bool :=
  isdigitC (charAt s 0) ||
    ((charAt s 0 == '+' || charAt s 0 == '-' || charAt s 0 == '.')
      && isdigitC (charAt s 1))

/-- Claim C8 counterexample: the name "+.5" falls outside the claim's
rejection condition (plus followed by a dot, not by a digit), and it is not
in the table, so per the claim a fresh alias should be created; the code
instead rejects it with a diagnostic and returns the dummy identifier,
because cs_check_num also accepts a sign followed by dot-and-digit. -/
theorem c8_new_ident_rejects_plus_dot_digit :
    c8ClaimedCond ['+', '.', '5'] = false ∧
      idents_at ⟨[]⟩ ['+', '.', '5'] = none ∧
      new_ident ⟨[]⟩ ['+', '.', '5'] {} = (none, ⟨[]⟩, [Diag.numberNotName]) := by
  refine ⟨by decide, by decide, by decide⟩

/-- Claim C8 (amended): new_ident rejects a fresh name with a diagnostic and
returns the dummy identifier exactly when the name begins with a digit, or
with a plus or minus sign followed by a digit or by a dot and a digit, or a dot
followed by a digit; every other fresh name is entered in the table as a new
alias. -/
theorem c8_new_ident_amended (st : ITab) (name : List Char) (flags : IdFlags)
    (h : idents_at st name = none) :
    (cs_check_num name =
      (isdigitC (charAt name 0) ||
        ((charAt name 0 == '+' || charAt name 0 == '-')
          && (isdigitC (charAt name 1)
            || (charAt name 1 == '.' && isdigitC (charAt name 2))))
        || (charAt name 0 == '.' && isdigitC (charAt name 1)))) ∧
    (cs_check_num name = true →
      new_ident st name flags = (none, st, [Diag.numberNotName])) ∧
    (cs_check_num name = false →
      new_ident st name flags = (some (name, IdKind.aliasK flags),
        ⟨st.tab ++ [(name, IdKind.aliasK flags)]⟩, [])) := by
  refine ⟨?_, ?_, ?_⟩
  · rw [cs_check_num]
    split_ifs with h1 h2 h3 <;> simp_all
    rcases h2 with h2 | h2 <;> simp [h2]
  · intro hc
    rw [new_ident, h]
    simp [hc]
  · intro hc
    rw [new_ident, h]
    simp [hc]

/-- Claim C8 witness: the fresh non-numeric name "a1" is created as an alias,
and the fresh numeric-looking name "+.5" is rejected, instantiating both arms
of the amended theorem at the empty table. -/
theorem c8_new_ident_amended_witness :
    idents_at ⟨[]⟩ ['a', '1'] = none ∧
      (cs_check_num ['a', '1'] = false →
        new_ident ⟨[]⟩ ['a', '1'] {} = (some (['a', '1'], IdKind.aliasK {}),
          ⟨[(['a', '1'], IdKind.aliasK {})]⟩, [])) :=
  ⟨by decide, (c8_new_ident_amended ⟨[]⟩ ['a', '1'] {} (by decide)).2.2⟩

/-! ### Integer variables: construction, setters, clamping (claims C2, C9) -/

/-- The state of an integer variable identifier (Ident with type ID_VAR):
flags, inclusive bounds, the backing int cell (storage.ip) and the
saved-override value. -/
structure IVar where
  flags : IdFlags
  minval : Int
  maxval : Int
  storage : Int
  overrideval : Int
deriving DecidableEq, Repr

/-- Model of the Ident ID_VAR constructor (src/cubescript.cc line 121):
the given flags, with READONLY added exactly when the bounds are inverted
(m > x). -/
def mkVarIdent (m x v : Int) (flagsv : IdFlags) : IVar :=
  { flags := { flagsv with readonly := flagsv.readonly || decide (m > x) },
    minval := m, maxval := x, storage := v, overrideval := 0 }

/-- Model of cs_override_var (src/cubescript.cc line 790) specialised to the
int-variable save/restore/clear closures used by set_var_int (sf saves the
storage into overrideval, rf and cf do nothing): returns whether the setter
may proceed, plus the updated variable and diagnostics (the failure message
is "cannot override persistent variable"). -/
def cs_override_var_int (identflags : IdFlags) (id : IVar) :
    Bool × IVar × List Diag :=
  if identflags.overridden || id.flags.override then
    if id.flags.persist then (false, id, [Diag.persistMsg])
    else if !id.flags.overridden then
      (true, { id with overrideval := id.storage,
                       flags := { id.flags with overridden := true } }, [])
    else (true, id, [])
  else
    if id.flags.overridden then
      (true, { id with flags := { id.flags with overridden := false } }, [])
    else (true, id, [])

/-- Model of ostd::clamp (external library): the value forced into
[lo, hi]. -/
def clampI (v lo hi : Int) : Int :=
  max lo (min v hi)

/-- Model of CsState::set_var_int (src/cubescript.cc line 811), applied to
the variable the name lookup resolved to: after the override bookkeeping,
the stored value is the clamped value when doclamp is set and the raw value
otherwise; the change callback runs when dofunc is set. No range diagnostic
is ever emitted on this path. -/
def set_var_int (identflags : IdFlags) (id : IVar) (v : Int)
    (dofunc doclamp : Bool) : IVar × List Diag :=
  let r := cs_override_var_int identflags id
  if !r.1 then (r.2.1, r.2.2)
  else
    let id2 := { r.2.1 with storage := if doclamp then clampI v id.minval id.maxval else v }
    (id2, r.2.2 ++ (if dofunc then [Diag.changed] else []))

/-- Model of cs_clamp_var (src/cubescript.cc line 922): values outside the
bounds are moved to the nearer bound and the diagnostic "valid range for x is
a..b" is emitted; in-range values pass through silently. -/
def cs_clamp_var (id : IVar) (v : Int) : Int × List Diag :=
  if v < id.minval then (id.minval, [Diag.rangeMsg])
  else if v > id.maxval then (id.maxval, [Diag.rangeMsg])
  else (v, [])

/-- Model of CsState::set_var_int_checked (src/cubescript.cc line 938):
rejects read-only variables with a diagnostic, otherwise clamps through
cs_clamp_var (emitting the range diagnostic for out-of-range values), stores
and runs the change callback. -/
def set_var_int_checked (identflags : IdFlags) (id : IVar) (v : Int) :
    IVar × List Diag :=
  if id.flags.readonly then (id, [Diag.readonlyMsg])
  else
    let r := cs_override_var_int identflags id
    if !r.1 then (r.2.1, r.2.2)
    else
      let cv := if v < id.minval || v > id.maxval then cs_clamp_var id v else (v, [])
      ({ r.2.1 with storage := cv.1 }, r.2.2 ++ cv.2 ++ [Diag.changed])

/-- Claim C2 counterexample: on a plain variable with bounds [0,100],
setting 250 with doclamp=false stores the raw value but emits no range
diagnostic (only the change callback runs), contradicting the claim's
"stores the raw value v unchanged and emits a range diagnostic". The range
diagnostic is only produced by the checked setter path (cs_clamp_var), which
clamps. -/
theorem c2_no_diagnostic_when_unclamped :
    (set_var_int {} (mkVarIdent 0 100 5 {}) 250 true false).1.storage = 250 ∧
      Diag.rangeMsg ∉ (set_var_int {} (mkVarIdent 0 100 5 {}) 250 true false).2 := by
  refine ⟨by decide, by decide⟩

/-- Claim C2 (amended): for a variable whose override bookkeeping does not
reject the write, set_var_int with doclamp=true stores the nearest bound for
out-of-range values (min if v < min, max if v > max, given min ≤ max) and
with doclamp=false stores the raw value; neither path emits a range
diagnostic. The range diagnostic accompanies the checked setter
set_var_int_checked, which clamps out-of-range values to the nearest bound
and emits it. -/
theorem c2_set_var_int_amended (identflags : IdFlags) (id : IVar) (v : Int)
    (dofunc : Bool)
    (hsucc : ¬ ((identflags.overridden || id.flags.override) ∧ id.flags.persist))
    (hmm : id.minval ≤ id.maxval) :
    ((v < id.minval → (set_var_int identflags id v dofunc true).1.storage = id.minval) ∧
     (v > id.maxval → (set_var_int identflags id v dofunc true).1.storage = id.maxval) ∧
     (id.minval ≤ v → v ≤ id.maxval →
       (set_var_int identflags id v dofunc true).1.storage = v)) ∧
    ((set_var_int identflags id v dofunc false).1.storage = v ∧
      Diag.rangeMsg ∉ (set_var_int identflags id v dofunc false).2 ∧
      Diag.rangeMsg ∉ (set_var_int identflags id v dofunc true).2) ∧
    (¬ id.flags.readonly → v < id.minval ∨ v > id.maxval →
      (set_var_int_checked identflags id v).1.storage =
          (if v < id.minval then id.minval else id.maxval) ∧
        Diag.rangeMsg ∈ (set_var_int_checked identflags id v).2) := by
  have hov : ∃ id2 : IVar, cs_override_var_int identflags id = (true, id2, []) ∧
      id2.minval = id.minval ∧ id2.maxval = id.maxval ∧ id2.flags.readonly = id.flags.readonly := by
    rw [cs_override_var_int]
    by_cases h1 : (identflags.overridden || id.flags.override) = true
    · have h2 : id.flags.persist = false := by
        rcases hp : id.flags.persist with _ | _
        · rfl
        · exact absurd ⟨by simpa using h1, hp⟩ hsucc
      rw [if_pos h1, h2]
      simp only [Bool.false_eq_true, if_false]
      by_cases h3 : id.flags.overridden = true
      · refine ⟨id, ?_, rfl, rfl, rfl⟩
        simp [h3]
      · refine ⟨{ id with overrideval := id.storage, flags := { id.flags with overridden := true } }, ?_, rfl, rfl, rfl⟩
        simp [h3]
    · rw [if_neg h1]
      by_cases h3 : id.flags.overridden = true
      · refine ⟨{ id with flags := { id.flags with overridden := false } }, ?_, rfl, rfl, rfl⟩
        simp [h3]
      · refine ⟨id, ?_, rfl, rfl, rfl⟩
        simp [h3]
  obtain ⟨id2, hoveq, hmn, hmx, hro2⟩ := hov
  refine ⟨⟨?_, ?_, ?_⟩, ⟨?_, ?_, ?_⟩, ?_⟩
  · intro hlt
    rw [set_var_int, hoveq]
    simp only [Bool.not_true, Bool.false_eq_true, if_false, clampI]
    simp only [ite_true]
    omega
  · intro hgt
    rw [set_var_int, hoveq]
    simp only [Bool.not_true, Bool.false_eq_true, if_false, clampI]
    simp only [ite_true]
    omega
  · intro hge hle
    rw [set_var_int, hoveq]
    simp only [Bool.not_true, Bool.false_eq_true, if_false, clampI]
    simp only [ite_true]
    omega
  · rw [set_var_int, hoveq]
    simp
  · rw [set_var_int, hoveq]
    rcases dofunc <;> simp
  · rw [set_var_int, hoveq]
    rcases dofunc <;> simp
  · intro hro hout
    rw [set_var_int_checked, if_neg (by simpa using hro), hoveq]
    simp only [Bool.not_true, Bool.false_eq_true, if_false]
    rw [if_pos (by rcases hout with hout | hout <;> simp [hout])]
    rw [cs_clamp_var]
    rcases hout with hout | hout
    · rw [if_pos hout]
      simp [hout]
    · have hnlt : ¬ v < id.minval := by omega
      rw [if_neg hnlt, if_pos hout]
      simp [hnlt]


/-- Claim C2 witness: a variable with bounds [0,100] set to 250; with
doclamp the bound 100 is stored, without it no range diagnostic appears, and
the checked setter stores 100 and does emit the range diagnostic. -/
theorem c2_set_var_int_amended_witness :
    (set_var_int {} (mkVarIdent 0 100 5 {}) 250 true true).1.storage = 100 ∧
      Diag.rangeMsg ∉ (set_var_int {} (mkVarIdent 0 100 5 {}) 250 true false).2 ∧
      (set_var_int_checked {} (mkVarIdent 0 100 5 {}) 250).1.storage = 100 ∧
      Diag.rangeMsg ∈ (set_var_int_checked {} (mkVarIdent 0 100 5 {}) 250).2 := by
  have h := c2_set_var_int_amended {} (mkVarIdent 0 100 5 {}) 250 true
    (by decide) (by decide)
  have h1 := h.1.2.1 (by decide)
  have h2 := h.2.1.2.1
  have h3 := h.2.2 (by decide) (by decide)
  exact ⟨h1, h2, by simpa using h3.1, h3.2⟩

/-- Model of the ID_VAR case of CsState::clear_override (src/cubescript.cc
line 271): nothing happens unless the variable is currently overridden;
otherwise the saved override value is written back, the change callback runs
and the OVERRIDDEN flag is cleared. -/
def clear_override_int (id : IVar) : IVar × List Diag :=
  if !id.flags.overridden then (id, [])
  else ({ id with storage := id.overrideval, flags := { id.flags with overridden := false } }, [Diag.changed])

/-- The claim C9 invariant: the bounds are ordered unless the variable is
read-only. -/
def varInvariant (id : IVar) : Prop :=
  id.minval ≤ id.maxval ∨ id.flags.readonly = true

theorem cs_override_var_int_preserves (identflags : IdFlags) (id : IVar) :
    (cs_override_var_int identflags id).2.1.minval = id.minval ∧
      (cs_override_var_int identflags id).2.1.maxval = id.maxval ∧
      (cs_override_var_int identflags id).2.1.flags.readonly = id.flags.readonly := by
  rw [cs_override_var_int]
  split_ifs <;> simp

theorem set_var_int_preserves (identflags : IdFlags) (id : IVar) (v : Int)
    (dofunc doclamp : Bool) :
    (set_var_int identflags id v dofunc doclamp).1.minval = id.minval ∧
      (set_var_int identflags id v dofunc doclamp).1.maxval = id.maxval ∧
      (set_var_int identflags id v dofunc doclamp).1.flags.readonly
        = id.flags.readonly := by
  have h := cs_override_var_int_preserves identflags id
  rw [set_var_int]
  split_ifs <;> simp_all

theorem set_var_int_checked_preserves (identflags : IdFlags) (id : IVar) (v : Int) :
    (set_var_int_checked identflags id v).1.minval = id.minval ∧
      (set_var_int_checked identflags id v).1.maxval = id.maxval ∧
      (set_var_int_checked identflags id v).1.flags.readonly = id.flags.readonly := by
  obtain ⟨h1, h2, h3⟩ := cs_override_var_int_preserves identflags id
  rw [set_var_int_checked]
  rcases hr : cs_override_var_int identflags id with ⟨b, id2, ds⟩
  rw [hr] at h1 h2 h3
  simp only at h1 h2 h3 ⊢
  rcases b <;> split_ifs <;> simp_all

theorem clear_override_int_preserves (id : IVar) :
    (clear_override_int id).1.minval = id.minval ∧
      (clear_override_int id).1.maxval = id.maxval ∧
      (clear_override_int id).1.flags.readonly = id.flags.readonly := by
  rw [clear_override_int]
  split_ifs <;> simp

/-- Claim C9: a numeric variable always satisfies min ≤ max unless it
carries the READONLY flag. The constructor adds READONLY exactly when the
range is inverted, so the invariant holds at creation, and all the
operations that touch an integer variable (the plain and checked setters,
the override bookkeeping and clear_override) never modify the bounds and
never clear READONLY, so the invariant is preserved. -/
theorem c9_var_bounds_invariant :
    (∀ m x v flagsv, varInvariant (mkVarIdent m x v flagsv)) ∧
    (∀ m x v flagsv, m > x → (mkVarIdent m x v flagsv).flags.readonly = true) ∧
    (∀ identflags id v dofunc doclamp, varInvariant id →
      varInvariant (set_var_int identflags id v dofunc doclamp).1) ∧
    (∀ identflags id v, varInvariant id →
      varInvariant (set_var_int_checked identflags id v).1) ∧
    (∀ identflags id, varInvariant id →
      varInvariant (cs_override_var_int identflags id).2.1) ∧
    (∀ id, varInvariant id → varInvariant (clear_override_int id).1) := by
  refine ⟨?_, ?_, ?_, ?_, ?_, ?_⟩
  · intro m x v flagsv
    rw [varInvariant, mkVarIdent]
    by_cases h : m > x
    · right; simp [h]
    · left
      simp only []
      omega
  · intro m x v flagsv h
    rw [mkVarIdent]
    simp [h]
  · intro identflags id v dofunc doclamp hinv
    have h := set_var_int_preserves identflags id v dofunc doclamp
    rw [varInvariant, h.1, h.2.1, h.2.2]
    exact hinv
  · intro identflags id v hinv
    have h := set_var_int_checked_preserves identflags id v
    rw [varInvariant, h.1, h.2.1, h.2.2]
    exact hinv
  · intro identflags id hinv
    have h := cs_override_var_int_preserves identflags id
    rw [varInvariant, h.1, h.2.1, h.2.2]
    exact hinv
  · intro id hinv
    have h := clear_override_int_preserves id
    rw [varInvariant, h.1, h.2.1, h.2.2]
    exact hinv

/-- Claim C9 witness: a variable constructed with the inverted range [5,-5]
is read-only (so satisfies the invariant), and a clamped write to a normal
[0,100] variable keeps the invariant. -/
theorem c9_var_bounds_invariant_witness :
    varInvariant (mkVarIdent 5 (-5) 0 {}) ∧
      (mkVarIdent 5 (-5) 0 {}).flags.readonly = true ∧
      varInvariant (set_var_int {} (mkVarIdent 0 100 5 {}) 250 true true).1 :=
  ⟨c9_var_bounds_invariant.1 5 (-5) 0 {},
    c9_var_bounds_invariant.2.1 5 (-5) 0 {} (by decide),
    c9_var_bounds_invariant.2.2.1 {} (mkVarIdent 0 100 5 {}) 250 true true
      (by rw [varInvariant]; left; decide)⟩

/-! ### Division and modulo commands (claim C10) -/

/-- Failure modes of the C signed arithmetic inside the div/mod commands:
division by zero, and the INT_MIN / -1 quotient overflow (both undefined
behaviour in C; on the targeted platforms both raise SIGFPE). -/
inductive DivErr where
  | divByZero
  | overflow
deriving DecidableEq, Repr

/-- INT_MIN of the 32-bit int type. -/
def intMin : Int := -(2 ^ 31)

/-- The C expression val / val2 on int: truncating division, undefined on a
zero divisor and on INT_MIN / -1. -/
def cdiv (a b : Int) : Except DivErr Int :=
  if b = 0 then Except.error DivErr.divByZero
  else if a = intMin && b = -1 then Except.error DivErr.overflow
  else Except.ok (Int.tdiv a b)

/-- The C expression val % val2 on int: truncating remainder, undefined on a
zero divisor and on INT_MIN % -1. -/
def cmod (a b : Int) : Except DivErr Int :=
  if b = 0 then Except.error DivErr.divByZero
  else if a = intMin && b = -1 then Except.error DivErr.overflow
  else Except.ok (Int.tmod a b)

/-- One accumulation step of the CS_CMD_DIV commands (src/cubescript.cc line
4702): the guarded body "if (val2) op; else val = 0;" — the operation runs
only on a nonzero divisor, a zero divisor resets the accumulator to 0. -/
def divStep (op : Int → Int → Except DivErr Int) (val val2 : Int) :
    Except DivErr Int :=
  if val2 ≠ 0 then op val val2 else Except.ok 0

/-- The accumulation loop of CS_CMD_MATH (src/cubescript.cc line 4652) for
the division commands: fold divStep over the remaining operands, stopping at
the first undefined step. -/
def runDivFold (op : Int → Int → Except DivErr Int) : Int → List Int → Except DivErr Int
  | acc, [] => Except.ok acc
  | acc, a :: rest =>
    match divStep op acc a with
    | Except.ok v => runDivFold op v rest
    | Except.error e => Except.error e

/-- The div/mod command body over its integer operand list (CS_CMD_MATH with
the CS_CMD_DIV operation): two or more operands fold through divStep; one
operand or none yields the operand itself or the initial value 0. (In this
source the final value is then discarded rather than stored into the result
cell — see claim C5 — which does not affect whether the arithmetic itself is
defined.) -/
def runDivCmd (op : Int → Int → Except DivErr Int) (args : List Int) :
    Except DivErr Int :=
  match args with
  | [] => Except.ok 0
  | [a] => Except.ok a
  | a0 :: rest => runDivFold op a0 rest

/-- Claim C10 counterexample: div -2147483648 -1 has a nonzero divisor, so
the zero-divisor guard does not fire and val /= val2 computes
INT_MIN / -1, whose quotient is not representable — undefined behaviour in C
(SIGFPE on the targeted platforms); the command does not terminate with a
defined value on this argument list. -/
theorem c10_div_overflow_undefined :
    runDivCmd cdiv [intMin, -1] = Except.error DivErr.overflow ∧
      runDivCmd cmod [intMin, -1] = Except.error DivErr.overflow :=
  ⟨rfl, rfl⟩

theorem natAbs_tdiv_le (a b : Int) : (Int.tdiv a b).natAbs ≤ a.natAbs := by
  rcases a with m | m <;> rcases b with n | n <;>
    simp [Int.tdiv, Int.natAbs_neg] <;>
    exact Nat.div_le_self _ _

theorem natAbs_tmod_le (a b : Int) : (Int.tmod a b).natAbs ≤ a.natAbs := by
  rcases a with m | m <;> rcases b with n | n <;>
    simp [Int.tmod, Int.natAbs_neg] <;>
    exact Nat.mod_le _ _

theorem runDivFold_no_div0 (op : Int → Int → Except DivErr Int)
    (hop : ∀ a b, b ≠ 0 → op a b ≠ Except.error DivErr.divByZero) :
    ∀ rest acc, runDivFold op acc rest ≠ Except.error DivErr.divByZero := by
  intro rest
  induction rest with
  | nil => intro acc; simp [runDivFold]
  | cons a rest ih =>
    intro acc
    rw [runDivFold, divStep]
    by_cases ha : a = 0
    · simp only [ha, ne_eq, not_true_eq_false, Bool.false_eq_true, if_false, ite_false]
      exact ih 0
    · rw [if_pos (by simpa using ha)]
      rcases hop2 : op acc a with e | v
      · intro hcontra
        exact hop acc a ha (by rw [hop2]; exact hcontra)
      · exact ih v

theorem runDivFold_total (op : Int → Int → Except DivErr Int)
    (hop : ∀ a b, b ≠ 0 → a.natAbs < 2 ^ 31 →
      ∃ v, op a b = Except.ok v ∧ v.natAbs < 2 ^ 31) :
    ∀ rest acc, acc.natAbs < 2 ^ 31 →
      ∃ v, runDivFold op acc rest = Except.ok v := by
  intro rest
  induction rest with
  | nil => intro acc _; exact ⟨acc, rfl⟩
  | cons a rest ih =>
    intro acc hacc
    rw [runDivFold, divStep]
    by_cases ha : a = 0
    · simp only [ha, ne_eq, not_true_eq_false, Bool.false_eq_true, if_false, ite_false]
      exact ih 0 (by decide)
    · rw [if_pos (by simpa using ha)]
      obtain ⟨v, hv, hvb⟩ := hop acc a ha hacc
      rw [hv]
      exact ih v hvb

theorem cdiv_ok (a b : Int) (hb : b ≠ 0) (ha : a.natAbs < 2 ^ 31) :
    ∃ v, cdiv a b = Except.ok v ∧ v.natAbs < 2 ^ 31 := by
  have hamin : a ≠ intMin := by
    intro h
    rw [h] at ha
    exact absurd ha (by decide)
  refine ⟨Int.tdiv a b, ?_, ?_⟩
  · rw [cdiv, if_neg hb, if_neg (by simp [hamin])]
  · exact lt_of_le_of_lt (natAbs_tdiv_le a b) ha

theorem cmod_ok (a b : Int) (hb : b ≠ 0) (ha : a.natAbs < 2 ^ 31) :
    ∃ v, cmod a b = Except.ok v ∧ v.natAbs < 2 ^ 31 := by
  have hamin : a ≠ intMin := by
    intro h
    rw [h] at ha
    exact absurd ha (by decide)
  refine ⟨Int.tmod a b, ?_, ?_⟩
  · rw [cmod, if_neg hb, if_neg (by simp [hamin])]
  · exact lt_of_le_of_lt (natAbs_tmod_le a b) ha

/-- Claim C10 (amended): the divisor guard of the div/mod commands means no
division by zero is ever executed (on a zero divisor the accumulator is set
to 0 instead), and for every argument list whose first operand is a 32-bit
int other than INT_MIN the command's arithmetic is fully defined; the only
undefined case left by the guard is the INT_MIN / -1 (or % -1) overflow,
which the guard does not cover. The float variants divf/modf carry the same
guard and have no overflow case. -/
theorem c10_div_guard_amended (args : List Int)
    (h : ∀ a0 ∈ args.take 1, a0.natAbs < 2 ^ 31) :
    runDivCmd cdiv args ≠ Except.error DivErr.divByZero ∧
      runDivCmd cmod args ≠ Except.error DivErr.divByZero ∧
      (∃ v, runDivCmd cdiv args = Except.ok v) ∧
      (∃ v, runDivCmd cmod args = Except.ok v) := by
  have hdno : ∀ a b : Int, b ≠ 0 → cdiv a b ≠ Except.error DivErr.divByZero := by
    intro a b hb
    rw [cdiv, if_neg hb]
    split_ifs <;> simp
  have hmno : ∀ a b : Int, b ≠ 0 → cmod a b ≠ Except.error DivErr.divByZero := by
    intro a b hb
    rw [cmod, if_neg hb]
    split_ifs <;> simp
  match args with
  | [] => exact ⟨by simp [runDivCmd], by simp [runDivCmd], ⟨0, rfl⟩, ⟨0, rfl⟩⟩
  | [a] => exact ⟨by simp [runDivCmd], by simp [runDivCmd], ⟨a, rfl⟩, ⟨a, rfl⟩⟩
  | a0 :: a1 :: rest =>
    have ha0 : a0.natAbs < 2 ^ 31 := h a0 (by simp)
    exact ⟨runDivFold_no_div0 cdiv hdno _ _, runDivFold_no_div0 cmod hmno _ _,
      runDivFold_total cdiv cdiv_ok (a1 :: rest) a0 ha0,
      runDivFold_total cmod cmod_ok (a1 :: rest) a0 ha0⟩

/-- Claim C10 witness: div 7 0 2 — the zero divisor resets the accumulator
to 0 and the remaining division is performed on it, with a defined result
throughout. -/
theorem c10_div_guard_amended_witness :
    (∀ a0 ∈ ([7, 0, 2] : List Int).take 1, a0.natAbs < 2 ^ 31) ∧
      (∃ v, runDivCmd cdiv [7, 0, 2] = Except.ok v) ∧
      runDivCmd cdiv [7, 0, 2] = Except.ok 0 :=
  ⟨by decide, (c10_div_guard_amended [7, 0, 2] (by decide)).2.2.1, rfl⟩

/-!
### C6: bytecode reference counting (src/cubescript.cc lines 2472-2509)

A bytecode block is an array of 32-bit words; we model it as a list of
naturals (each below 2 to the 32) plus an index standing for the code
pointer.  The null-pointer early return of the C functions is outside the
model: a null pointer names no block.  Freeing by delete is modelled as
a Boolean flag returned next to the updated words.  Masking a word with
CODE_OP_MASK = 0x3F keeps the low six bits, i.e. reduces mod 64.
-/

def CODE_START : Nat := 0

def CODE_OFFSET : Nat := 1

def wordAt (code : List Nat) (i : Nat) : Nat := code.getD i 0

/-- The low six opcode bits of a word: w and CODE_OP_MASK, i.e. w mod 64. -/
def opcodeOf (w : Nat) : Nat := w % 64

/-- Model of the 32-bit unsigned increment by 0x100 applied to a refcount word. -/
def wincr (w : Nat) : Nat := (w + 0x100) % 2 ^ 32

/-- Model of the 32-bit unsigned decrement by 0x100 applied to a refcount word. -/
def wdecr (w : Nat) : Nat := (w + 2 ^ 32 - 0x100) % 2 ^ 32

def bcode_ref (code : List Nat) (p : Nat) : List Nat :=
  if opcodeOf (wordAt code p) = CODE_START then
    code.set p (wincr (wordAt code p))
  else if opcodeOf (wordAt code (p - 1)) = CODE_START then
    code.set (p - 1) (wincr (wordAt code (p - 1)))
  else if opcodeOf (wordAt code (p - 1)) = CODE_OFFSET then
    code.set (p - wordAt code (p - 1) / 2 ^ 8)
      (wincr (wordAt code (p - wordAt code (p - 1) / 2 ^ 8)))
  else code

def bcode_unref (code : List Nat) (p : Nat) : List Nat × Bool :=
  if opcodeOf (wordAt code p) = CODE_START then
    (code.set p (wdecr (wordAt code p)),
      decide (toInt32 (wdecr (wordAt code p)) < 0x100))
  else if opcodeOf (wordAt code (p - 1)) = CODE_START then
    (code.set (p - 1) (wdecr (wordAt code (p - 1))),
      decide (toInt32 (wdecr (wordAt code (p - 1))) < 0x100))
  else if opcodeOf (wordAt code (p - 1)) = CODE_OFFSET then
    (code.set (p - wordAt code (p - 1) / 2 ^ 8)
        (wdecr (wordAt code (p - wordAt code (p - 1) / 2 ^ 8))),
      decide (toInt32 (wdecr (wordAt code (p - wordAt code (p - 1) / 2 ^ 8))) < 0x100))
  else (code, false)

set_option maxRecDepth 4096

/-- C6: a code pointer in either accepted shape - at the START word itself
(p = 0), or right after an OFFSET word whose payload records the
displacement back to START - is handled by both bcode_ref and bcode_unref,
and both shapes update the refcount held in the high bits of the one START
word of the block: ref raises the count from c to c + 1, unref lowers it to
c - 1 and frees the block exactly when the decremented count is below one
(the stored word drops below 0x100). -/
theorem c6_bcode_refcount (code : List Nat) (p c : Nat)
    (hw0 : wordAt code 0 = c * 256)
    (hc1 : 1 ≤ c) (hc2 : c < 2 ^ 23)
    (hshape : p = 0 ∨
      (1 ≤ p ∧ opcodeOf (wordAt code (p - 1)) = CODE_OFFSET ∧
        wordAt code (p - 1) / 2 ^ 8 = p ∧ opcodeOf (wordAt code p) ≠ CODE_START)) :
    bcode_ref code p = code.set 0 ((c + 1) * 256) ∧
    (bcode_unref code p).1 = code.set 0 ((c - 1) * 256) ∧
    ((bcode_unref code p).2 = true ↔ c - 1 = 0) := by
  have hstart : opcodeOf (wordAt code 0) = CODE_START := by
    rw [hw0]; unfold opcodeOf CODE_START; omega
  have hinc : wincr (c * 256) = (c + 1) * 256 := by
    unfold wincr; omega
  have hdec : wdecr (c * 256) = (c - 1) * 256 := by
    unfold wdecr; omega
  have hti : toInt32 ((c - 1) * 256) = (((c - 1) * 256 : Nat) : Int) := by
    unfold toInt32
    rw [if_pos] <;> rw [Nat.mod_eq_of_lt (by omega)]
    omega
  have hflag : (decide (toInt32 (wdecr (wordAt code 0)) < 0x100) = true) ↔ c - 1 = 0 := by
    rw [hw0, hdec, hti, decide_eq_true_iff]
    constructor <;> intro h
    · by_contra hne
      have : (256 : Int) ≤ (((c - 1) * 256 : Nat) : Int) := by
        have : (256 : Nat) ≤ (c - 1) * 256 := by omega
        exact_mod_cast this
      omega
    · rw [h]; norm_num
  rcases hshape with hp | ⟨hp1, hoff, hdisp, hne⟩
  · subst hp
    refine ⟨?_, ?_, ?_⟩
    · unfold bcode_ref
      rw [if_pos hstart, hw0, hinc]
    · unfold bcode_unref
      rw [if_pos hstart, hw0, hdec]
    · unfold bcode_unref
      rw [if_pos hstart]
      dsimp only
      exact hflag
  · have hne2 : opcodeOf (wordAt code (p - 1)) ≠ CODE_START := by
      rw [hoff]; unfold CODE_OFFSET CODE_START; omega
    have hq : p - wordAt code (p - 1) / 2 ^ 8 = 0 := by rw [hdisp]; omega
    refine ⟨?_, ?_, ?_⟩
    · unfold bcode_ref
      rw [if_neg hne, if_neg hne2, if_pos hoff, hq, hw0, hinc]
    · unfold bcode_unref
      rw [if_neg hne, if_neg hne2, if_pos hoff, hq, hw0, hdec]
    · unfold bcode_unref
      rw [if_neg hne, if_neg hne2, if_pos hoff, hq]
      dsimp only
      exact hflag

/-- Witness for c6_bcode_refcount: the block [512, 513, 5] holds the START
word 512 (refcount 2), an OFFSET word 513 (opcode 1, displacement 2) and
one further word; the pointer p = 2 is in the OFFSET shape. -/
theorem c6_bcode_refcount_witness :
    bcode_ref [512, 513, 5] 2 = [512, 513, 5].set 0 ((2 + 1) * 256) ∧
    (bcode_unref [512, 513, 5] 2).1 = [512, 513, 5].set 0 ((2 - 1) * 256) ∧
    ((bcode_unref [512, 513, 5] 2).2 = true ↔ 2 - 1 = 0) :=
  c6_bcode_refcount [512, 513, 5] 2 2 (by decide) (by decide) (by decide)
    (Or.inr ⟨by decide, by decide, by decide, by decide⟩)

/-!
### C3: boolean conversion (src/cubescript.cc lines 1510-1558)

The string overload cs_get_bool_str and its helper cs_get_bool_zero are in
section 1 above; here the TaggedValue overload is modelled and the claim is
settled.
-/

/-- The tags of TaggedValue together with the payload read by the boolean
conversion. TaggedValue itself is declared in the missing old header;
the tag set VAL_NULL/INT/FLOAT/STR/MACRO/CSTR/CODE/IDENT and the payload
fields i/f/s are as used throughout src/cubescript.cc. -/
inductive TVal where
  | tnull
  | tint (i : Int)
  | tfloat (f : ℚ)
  | tstr (s : List Char)
  | tmacro (s : List Char)
  | tcstr (s : List Char)
  | tident
  | tcode

/-- Model of cs_get_bool on a TaggedValue (src/cubescript.cc line 1545):
float and int values compare against zero, the three string-typed tags defer
to the string conversion, every other tag gives false. -/
def cs_get_bool_val : TVal → Bool
  | TVal.tfloat f => decide (f ≠ 0)
  | TVal.tint i => decide (i ≠ 0)
  | TVal.tstr s => cs_get_bool_str s
  | TVal.tmacro s => cs_get_bool_str s
  | TVal.tcstr s => cs_get_bool_str s
  | _ => false

/-- Value of a big-endian decimal digit list. -/
def digitsVal (ds : List Nat) : Nat := ds.foldl (fun x d => x * 10 + d) 0

/-- A numeral of the shape named by the claim: optional sign, integer
digits, optionally a point and fraction digits. -/
def fragStr (sign : List Char) (I F : List Nat) (hasF : Bool) : List Char :=
  sign ++ I.map digitChar ++ (if hasF then '.' :: F.map digitChar else [])

/-- The rational value such a numeral denotes. -/
def fragQ (sign : List Char) (I F : List Nat) (hasF : Bool) : ℚ :=
  (if sign = ['-'] then -1 else 1) *
    ((digitsVal I : ℚ) + (if hasF then (digitsVal F : ℚ) / 10 ^ F.length else 0))

/-- C3, counterexample: the numeral "0x100000000" (2 to the 32, not a
spelling of zero - as a float it parses to 4294967296) converts to FALSE,
because cs_get_bool truncates the strtoul result with an int cast before
the zero test, and 2 to the 32 truncates to 0. -/
theorem c3_get_bool_hex_wrap :
    cs_get_bool_str ['0', 'x', '1', '0', '0', '0', '0', '0', '0', '0', '0'] = false ∧
    cs_parse_float ['0', 'x', '1', '0', '0', '0', '0', '0', '0', '0', '0'] = 4294967296 ∧
    (4294967296 : ℚ) ≠ 0 ∧
    cs_parse_int ['0', 'x', '1', '0', '0', '0', '0', '0', '0', '0', '0'] = 0 := by
  refine ⟨by decide, by decide, by decide, by decide⟩

theorem charAt_cons_succ (c : Char) (l : List Char) (i : Nat) :
    charAt (c :: l) (i + 1) = charAt l i := rfl

theorem charAt_of_le_length (s : List Char) (i : Nat) (h : s.length ≤ i) :
    charAt s i = '\x00' := by
  rw [charAt, List.drop_eq_nil_of_le h]
  rfl

theorem digitChar_beq_zero (d : Nat) (hd : d < 10) (h0 : d ≠ 0) :
    (digitChar d == '0') = false := by
  have hne : digitChar d ≠ '0' := by
    intro h
    have h2 : (digitChar d).toNat = ('0' : Char).toNat := by rw [h]
    rw [digitChar_toNat d hd] at h2
    have h3 : ('0' : Char).toNat = 48 := rfl
    omega
  simpa using hne

theorem foldl_digits_ge (ds : List Nat) :
    ∀ a : Nat, a ≤ ds.foldl (fun x d => x * 10 + d) a := by
  induction ds with
  | nil => intro a; simp
  | cons d ds ih =>
    intro a
    rw [List.foldl_cons]
    exact le_trans (by omega) (ih (a * 10 + d))

theorem digitsVal_head_le (d : Nat) (ds : List Nat) : d ≤ digitsVal (d :: ds) := by
  rw [digitsVal, List.foldl_cons]
  have := foldl_digits_ge ds (0 * 10 + d)
  omega

theorem decAccum_cons_digit (b : Nat) (c : Char) (cs : List Char) (a d : Nat)
    (h : digitValB b c = some d) :
    decAccum b (c :: cs) a = decAccum b cs (a * b + d) := by
  rw [decAccum, h]

theorem decAccum_cons_stop (b : Nat) (c : Char) (cs : List Char) (a : Nat)
    (h : digitValB b c = none) : decAccum b (c :: cs) a = (a, c :: cs) := by
  rw [decAccum, h]

/-- A string whose first character is a nonzero digit falls through every
case of the cs_get_bool switch to the final return true. -/
theorem cs_get_bool_str_head_digit (d : Nat) (hd : d < 10) (h0 : d ≠ 0)
    (rest : List Char) : cs_get_bool_str (digitChar d :: rest) = true := by
  simp only [cs_get_bool_str, List.isEmpty_cons, charAt_cons_zero,
    digitChar_beq d hd '+' (by left; decide), digitChar_beq d hd '-' (by left; decide),
    digitChar_beq_zero d hd h0, digitChar_beq d hd '.' (by left; decide),
    digitChar_beq d hd '\x00' (by left; decide),
    Bool.or_self, Bool.false_eq_true, if_false]

/-- A sign character followed by a nonzero digit takes the default branch of
the inner switch: true. -/
theorem cs_get_bool_str_sign_digit (c : Char) (hc : c = '+' ∨ c = '-')
    (d : Nat) (hd : d < 10) (h0 : d ≠ 0) (rest : List Char) :
    cs_get_bool_str (c :: digitChar d :: rest) = true := by
  rcases hc with hc | hc <;> subst hc <;>
    simp only [cs_get_bool_str, List.isEmpty_cons, charAt_cons_zero, charAt_cons_succ,
      digitChar_beq_zero d hd h0, digitChar_beq d hd '.' (by left; decide),
      Bool.or_self, Bool.false_eq_true, if_false, if_true] <;>
    simp

/-- strtoul of an optionally signed zero-prefixed string whose next character
is neither an octal digit nor an x: the octal branch consumes exactly the
zero, and the value is zero, also after the unsigned negation applied for a
minus sign. -/
theorem strtoulP_zero_prefix (sign : List Char)
    (hsign : sign = [] ∨ sign = ['+'] ∨ sign = ['-']) (rest : List Char)
    (hstop : digitValB 8 (charAt rest 0) = none)
    (hx : (charAt rest 0 == 'x') = false) (hX : (charAt rest 0 == 'X') = false) :
    strtoulP (sign ++ '0' :: rest) = (0, sign.length + 1) := by
  have hdec : decAccum 8 ('0' :: rest) 0 = (0, rest) := by
    rw [decAccum_cons_digit 8 '0' rest 0 0 (by decide)]
    show decAccum 8 rest 0 = (0, rest)
    rcases rest with _ | ⟨r0, rt⟩
    · rfl
    · exact decAccum_cons_stop 8 r0 rt 0 (by simpa [charAt_cons_zero] using hstop)
  have hhex : ((charAt ('0' :: rest) 0 == '0')
      && ((charAt ('0' :: rest) 1 == 'x') || (charAt ('0' :: rest) 1 == 'X'))
      && (digitValB 16 (charAt ('0' :: rest) 2)).isSome) = false := by
    rw [charAt_cons_succ]
    simp [hx, hX]
  have hc1 : (charAt ('0' :: rest) 0 == '0') = true := rfl
  have hcore : strtoul0core ('0' :: rest) = (0, 1) := by
    rw [strtoul0core, if_neg (by simp [hhex]), if_pos (by simp [hc1])]
    simp only [hdec, List.length_cons]
    simp
  rcases hsign with h | h | h <;> subst h
  · rw [List.nil_append, strtoulP]
    simp only [takeWhile_nil_of_head isspaceC '0' rest (by decide), List.length_nil,
      List.drop_zero, charAt_cons_zero, show ('0' == '-') = false from rfl,
      show ('0' == '+') = false from rfl, Bool.or_self, Bool.false_eq_true, if_false,
      ite_false, hcore]
    norm_num [ulongMax]
  · rw [strtoulP]
    simp only [List.cons_append, List.nil_append,
      takeWhile_nil_of_head isspaceC '+' ('0' :: rest) (by decide), List.length_nil,
      List.drop_zero, charAt_cons_zero, show ('+' == '-') = false from rfl,
      show ('+' == '+') = true from rfl, Bool.false_or, if_true, List.drop_one,
      List.tail_cons, hcore]
    norm_num [ulongMax]
  · rw [strtoulP]
    simp only [List.cons_append, List.nil_append,
      takeWhile_nil_of_head isspaceC '-' ('0' :: rest) (by decide), List.length_nil,
      List.drop_zero, charAt_cons_zero, show ('-' == '-') = true from rfl,
      Bool.true_or, if_true, List.drop_one, List.tail_cons, hcore]
    norm_num [ulongMax]



theorem qpow10_zero : qpow10 0 = 1 := by
  rw [qpow10]
  norm_num

/-- cs_parse_float of an optionally signed numeral with integer part zero and
a fraction: the exact signed value of the fraction. -/
theorem cs_parse_float_zero_frac (sign : List Char)
    (hsign : sign = [] ∨ sign = ['+'] ∨ sign = ['-']) (F : List Nat)
    (hF : ∀ d ∈ F, d < 10) :
    cs_parse_float (sign ++ '0' :: '.' :: F.map digitChar) =
      (if sign = ['-'] then (-1 : ℚ) else 1) * ((digitsVal F : ℚ) / 10 ^ F.length) := by
  have hp1 : decAccum 10 ('0' :: '.' :: F.map digitChar) 0 = (0, '.' :: F.map digitChar) := by
    rw [decAccum_cons_digit 10 '0' _ 0 0 (by decide)]
    show decAccum 10 ('.' :: F.map digitChar) 0 = (0, '.' :: F.map digitChar)
    exact decAccum_cons_stop 10 '.' _ 0 (by decide)
  have hp2 : decAccum 10 (F.map digitChar) 0 = (digitsVal F, []) := by
    rw [digitsVal]
    exact decAccum_map_digitChar 10 F (fun d hd => ⟨hF d hd, hF d hd⟩) 0
  have hmant : mantissaPart 10 ('0' :: '.' :: F.map digitChar) =
      (0, digitsVal F, F.length, true, 2 + F.length) := by
    rw [mantissaPart]
    simp only [hp1, charAt_cons_zero, show ('.' == '.') = true from rfl, if_true,
      List.drop_one, List.tail_cons, hp2, List.length_cons, List.length_map,
      List.length_nil]
    norm_num
  have hdrop : ('0' :: '.' :: F.map digitChar).drop (2 + F.length) = [] := by
    have h2 : 2 + F.length = F.length + 1 + 1 := by omega
    rw [h2, List.drop_succ_cons, List.drop_succ_cons,
      show F.length = (F.map digitChar).length from (List.length_map _ _).symm,
      List.drop_length]
  have hexp : expPart 'e' 'E' (('0' :: '.' :: F.map digitChar).drop (2 + F.length)) =
      (0, 0) := by
    rw [hdrop, expPart, if_neg (by decide)]
  rcases hsign with h | h | h <;> subst h
  · rw [List.nil_append, cs_parse_float, if_neg (by simp), parsefloat]
    have hstd : strtodP ('0' :: '.' :: F.map digitChar) =
        ((1 : ℚ) * ((0 : ℚ) + (digitsVal F : ℚ) / (10 : ℚ) ^ F.length) * qpow10 0,
          0 + 0 + (2 + F.length) + 0) := by
      rw [strtodP]
      simp only [takeWhile_nil_of_head isspaceC '0' _ (by decide), List.length_nil,
        List.drop_zero, charAt_cons_zero, show ('0' == '-') = false from rfl,
        show ('0' == '+') = false from rfl, Bool.or_self, Bool.false_eq_true, if_false,
        ite_false,
        show (charAt ('0' :: '.' :: F.map digitChar) 1 == 'x') = false from rfl,
        show (charAt ('0' :: '.' :: F.map digitChar) 1 == 'X') = false from rfl,
        Bool.and_false, Bool.false_and, hmant, hexp]
      norm_num
    rw [hstd]
    dsimp only
    conv_rhs => rw [if_neg (show ¬(([] : List Char) = ['-']) from by simp)]
    split_ifs with hcc
    · rw [qpow10_zero]
      ring
    · have hch : charAt ('0' :: '.' :: F.map digitChar) (0 + 0 + (2 + F.length) + 0) =
          '\x00' := by
        apply charAt_of_le_length
        simp only [List.length_cons, List.length_map]
        omega
      rw [hch] at hcc
      simp at hcc
  · rw [List.cons_append, List.nil_append, cs_parse_float, if_neg (by simp), parsefloat]
    have hstd : strtodP ('+' :: '0' :: '.' :: F.map digitChar) =
        ((1 : ℚ) * ((0 : ℚ) + (digitsVal F : ℚ) / (10 : ℚ) ^ F.length) * qpow10 0,
          0 + 1 + (2 + F.length) + 0) := by
      rw [strtodP]
      simp only [takeWhile_nil_of_head isspaceC '+' _ (by decide), List.length_nil,
        List.drop_zero, charAt_cons_zero, show ('+' == '-') = false from rfl,
        show ('+' == '+') = true from rfl, Bool.false_or, if_true, List.drop_one,
        List.tail_cons,
        show (charAt ('0' :: '.' :: F.map digitChar) 1 == 'x') = false from rfl,
        show (charAt ('0' :: '.' :: F.map digitChar) 1 == 'X') = false from rfl,
        Bool.and_false, Bool.false_and, Bool.false_eq_true, if_false, ite_false,
        hmant, hexp]
      norm_num
    rw [hstd]
    dsimp only
    conv_rhs => rw [if_neg (show ¬((['+'] : List Char) = ['-']) from by simp)]
    split_ifs with hcc
    · rw [qpow10_zero]
      ring
    · have hch : charAt ('+' :: '0' :: '.' :: F.map digitChar) (0 + 1 + (2 + F.length) + 0) =
          '\x00' := by
        apply charAt_of_le_length
        simp only [List.length_cons, List.length_map]
        omega
      rw [hch] at hcc
      simp at hcc
  · rw [List.cons_append, List.nil_append, cs_parse_float, if_neg (by simp), parsefloat]
    have hstd : strtodP ('-' :: '0' :: '.' :: F.map digitChar) =
        ((-1 : ℚ) * ((0 : ℚ) + (digitsVal F : ℚ) / (10 : ℚ) ^ F.length) * qpow10 0,
          0 + 1 + (2 + F.length) + 0) := by
      rw [strtodP]
      simp only [takeWhile_nil_of_head isspaceC '-' _ (by decide), List.length_nil,
        List.drop_zero, charAt_cons_zero, show ('-' == '-') = true from rfl,
        Bool.true_or, if_true, List.drop_one, List.tail_cons,
        show (charAt ('0' :: '.' :: F.map digitChar) 1 == 'x') = false from rfl,
        show (charAt ('0' :: '.' :: F.map digitChar) 1 == 'X') = false from rfl,
        Bool.and_false, Bool.false_and, Bool.false_eq_true, if_false, ite_false,
        hmant, hexp]
      norm_num
    rw [hstd]
    dsimp only
    conv_rhs => rw [if_pos rfl]
    split_ifs with hcc
    · rw [qpow10_zero]
      ring
    · have hch : charAt ('-' :: '0' :: '.' :: F.map digitChar) (0 + 1 + (2 + F.length) + 0) =
          '\x00' := by
        apply charAt_of_le_length
        simp only [List.length_cons, List.length_map]
        omega
      rw [hch] at hcc
      simp at hcc

/-- C3 (amended): for int and float values the boolean conversion is true
exactly when the value is nonzero; for strings the claimed equivalence holds
on normalized decimal numerals - optional sign, then either a single zero or
digits not starting in zero, optionally a point and fraction digits: the
conversion is false exactly when the numeral denotes zero. Outside this
fragment the equivalence fails; see the counterexample on "0x100000000". -/
theorem c3_get_bool_amended :
    (∀ i : Int, cs_get_bool_val (TVal.tint i) = decide (i ≠ 0)) ∧
    (∀ q : ℚ, cs_get_bool_val (TVal.tfloat q) = decide (q ≠ 0)) ∧
    (∀ (sign : List Char) (I F : List Nat) (hasF : Bool),
      (sign = [] ∨ sign = ['+'] ∨ sign = ['-']) →
      (∀ d ∈ I, d < 10) → (∀ d ∈ F, d < 10) →
      (I = [0] ∨ (I ≠ [] ∧ I.headD 0 ≠ 0)) →
      cs_get_bool_val (TVal.tstr (fragStr sign I F hasF)) =
        decide (fragQ sign I F hasF ≠ 0)) := by
  refine ⟨fun i => rfl, fun q => rfl, ?_⟩
  intro sign I F hasF hsign hIlt hFlt hnorm
  show cs_get_bool_str (fragStr sign I F hasF) = decide (fragQ sign I F hasF ≠ 0)
  rcases hnorm with hI0 | ⟨hInil, hhead⟩
  · subst hI0
    cases hasF
    · have hv : fragQ sign [0] F false = 0 := by
        simp [fragQ, digitsVal]
      rw [hv]
      rcases hsign with h | h | h <;> subst h
      · rw [show fragStr [] [0] F false = ['0'] from rfl]
        decide
      · rw [show fragStr ['+'] [0] F false = ['+', '0'] from rfl]
        decide
      · rw [show fragStr ['-'] [0] F false = ['-', '0'] from rfl]
        decide
    · have hs : fragStr sign [0] F true = sign ++ '0' :: '.' :: F.map digitChar := by
        simp [fragStr, List.append_assoc, show digitChar 0 = '0' from by decide]
      have hq : fragQ sign [0] F true =
          (if sign = ['-'] then (-1 : ℚ) else 1) * ((digitsVal F : ℚ) / 10 ^ F.length) := by
        simp [fragQ, digitsVal]
      rw [hs, hq]
      have hpf := cs_parse_float_zero_frac sign hsign F hFlt
      have hsp := strtoulP_zero_prefix sign hsign ('.' :: F.map digitChar) rfl rfl rfl
      rcases hsign with h | h | h <;> subst h
      · rw [List.nil_append] at hpf hsp ⊢
        rw [cs_get_bool_str]
        simp only [List.isEmpty_cons, Bool.false_eq_true, if_false, charAt_cons_zero,
          show ('0' == '+') = false from rfl, show ('0' == '-') = false from rfl,
          Bool.or_self, show ('0' == '0') = true from rfl, if_true, ite_false]
        rw [cs_get_bool_zero, hsp]
        dsimp only
        rw [if_neg (by decide),
          if_pos (show (charAt ('0' :: '.' :: F.map digitChar) (([] : List Char).length + 1) == 'e'
            || charAt ('0' :: '.' :: F.map digitChar) (([] : List Char).length + 1) == '.') = true
            from rfl), hpf]
      · rw [List.cons_append, List.nil_append] at hpf hsp ⊢
        rw [cs_get_bool_str]
        simp only [List.isEmpty_cons, Bool.false_eq_true, if_false, charAt_cons_zero,
          show ('+' == '+') = true from rfl, Bool.true_or, if_true, ite_false,
          show (charAt ('+' :: '0' :: '.' :: F.map digitChar) 1 == '0') = true from rfl]
        rw [cs_get_bool_zero, hsp]
        dsimp only
        rw [if_neg (by decide),
          if_pos (show (charAt ('+' :: '0' :: '.' :: F.map digitChar) ((['+'] : List Char).length + 1) == 'e'
            || charAt ('+' :: '0' :: '.' :: F.map digitChar) ((['+'] : List Char).length + 1) == '.') = true
            from rfl), hpf]
      · rw [List.cons_append, List.nil_append] at hpf hsp ⊢
        rw [cs_get_bool_str]
        simp only [List.isEmpty_cons, Bool.false_eq_true, if_false, charAt_cons_zero,
          show ('-' == '+') = false from rfl, show ('-' == '-') = true from rfl,
          Bool.or_true, if_true, ite_false,
          show (charAt ('-' :: '0' :: '.' :: F.map digitChar) 1 == '0') = true from rfl]
        rw [cs_get_bool_zero, hsp]
        dsimp only
        rw [if_neg (by decide),
          if_pos (show (charAt ('-' :: '0' :: '.' :: F.map digitChar) ((['-'] : List Char).length + 1) == 'e'
            || charAt ('-' :: '0' :: '.' :: F.map digitChar) ((['-'] : List Char).length + 1) == '.') = true
            from rfl), hpf]
        simp
  · rcases I with _ | ⟨d0, I2⟩
    · exact absurd rfl hInil
    have hd0lt : d0 < 10 := hIlt d0 (by simp)
    have hd0ne : d0 ≠ 0 := by simpa using hhead
    have hge : 1 ≤ digitsVal (d0 :: I2) := le_trans (by omega) (digitsVal_head_le d0 I2)
    have hfr : (0 : ℚ) ≤ (if hasF then (digitsVal F : ℚ) / 10 ^ F.length else 0) := by
      cases hasF
      · simp
      · simp only [if_true]
        positivity
    have hsum : (0 : ℚ) < (digitsVal (d0 :: I2) : ℚ) +
        (if hasF then (digitsVal F : ℚ) / 10 ^ F.length else 0) := by
      have h1 : (1 : ℚ) ≤ (digitsVal (d0 :: I2) : ℚ) := by exact_mod_cast hge
      linarith
    have hvne : fragQ sign (d0 :: I2) F hasF ≠ 0 := by
      rw [fragQ]
      apply mul_ne_zero
      · split_ifs <;> norm_num
      · exact ne_of_gt hsum
    rw [decide_eq_true hvne]
    rcases hsign with h | h | h <;> subst h
    · simp only [fragStr, List.map_cons, List.nil_append, List.cons_append]
      exact cs_get_bool_str_head_digit d0 hd0lt hd0ne _
    · simp only [fragStr, List.map_cons, List.nil_append, List.cons_append]
      exact cs_get_bool_str_sign_digit '+' (Or.inl rfl) d0 hd0lt hd0ne _
    · simp only [fragStr, List.map_cons, List.nil_append, List.cons_append]
      exact cs_get_bool_str_sign_digit '-' (Or.inr rfl) d0 hd0lt hd0ne _

/-- Witness for c3_get_bool_amended: the numeral "-0.5" converts to true and
denotes minus one half. -/
theorem c3_get_bool_amended_witness :
    cs_get_bool_val (TVal.tstr (fragStr ['-'] [0] [5] true)) = true ∧
    fragQ ['-'] [0] [5] true = -1 / 2 := by
  constructor
  · have h := c3_get_bool_amended.2.2 ['-'] [0] [5] true (Or.inr (Or.inr rfl))
      (by decide) (by decide) (Or.inl rfl)
    rw [h]
    decide
  · decide

/-!
## Section 4: the VM (runcode, src/cubescript.cc line 2699)

Bytecode is an array of 32-bit words; the model keeps all code of a test
setup (main code and alias bodies) in one word list `prog` and represents
code pointers as indices into it. The instruction subset modelled is the
one exercised by the claims; executing any other word yields `none`
(as does running out of fuel), so every `some` result of the model is a
faithfully traced run. TaggedValues are modelled by the tags the subset
produces (null, int, string, code); float and the remaining tags never
arise in the modelled programs. The bytecode refcounting on block headers
(modelled separately in section 3) only manages memory and is dropped here.
-/

def CODE_POP : Nat := 6

def CODE_ENTER : Nat := 7

def CODE_ENTER_RESULT : Nat := 8

def CODE_EXIT : Nat := 9

def CODE_RESULT_ARG : Nat := 10

def CODE_VAL : Nat := 11

def CODE_VALI : Nat := 12

def CODE_MACRO : Nat := 14

def CODE_BLOCK : Nat := 16

def CODE_RESULT : Nat := 21

def CODE_COMV : Nat := 28

def CODE_ALIASARG : Nat := 50

def CODE_CALL : Nat := 51

def CODE_CALLARG : Nat := 53

def CODE_DO : Nat := 56

def CODE_DOARGS : Nat := 57

def CODE_JUMP : Nat := 58

def CODE_JUMP_TRUE : Nat := 59

def CODE_JUMP_FALSE : Nat := 60

def CODE_JUMP_RESULT_TRUE : Nat := 61

def CODE_JUMP_RESULT_FALSE : Nat := 62

def RET_INT : Nat := 64

def RET_FLOAT : Nat := 128

def RET_STR : Nat := 192

def MaxArguments : Nat := 25

def MaxRunDepth : Nat := 255

/-- Runtime values: the TaggedValue tags produced by the modelled
instruction subset. A code value holds the index of the first instruction
of its block (TaggedValue::code). -/
inductive VVal where
  | vnull
  | vint (i : Int)
  | vstr (s : List Char)
  | vcode (p : Nat)
deriving DecidableEq, Repr

/-- cs_get_bool on a TaggedValue (src/cubescript.cc line 1545) over the
modelled tags: int against zero, strings via the string conversion, and the
default case (null/code here) false. -/
def vm_get_bool : VVal → Bool
  | VVal.vint i => decide (i ≠ 0)
  | VVal.vstr s => cs_get_bool_str s
  | _ => false

/-- Reading the i union member of a TaggedValue (the math commands read
args[k].i); reading it on a non-int value is unspecified in C, and the
modelled programs only apply it to ints - 0 is returned there. -/
def viOf : VVal → Int
  | VVal.vint i => i
  | _ => 0

/-- Faithful translation of TaggedValue::force (src/cubescript.cc line 514):
the switch tests get_type() - a VAL_ tag below 13 - against the case labels
RET_STR = 192, RET_INT = 64 and RET_FLOAT = 128, so no case ever matches and
the value is returned unchanged whatever the requested type. -/
def tvForce (v : VVal) (_ty : Nat) : VVal := v

/-- An identifier of the identmap: its current value, the chain of saved
bindings (the IdentStack list threaded through push_arg/pop_arg), the
compiled-code cache (Ident::code, an index into prog), the IDF_UNKNOWN flag
and the index that CsState::compile of the identifier's current text would
return (the model keeps all code preallocated inside prog). -/
structure AIdent where
  val : VVal := VVal.vnull
  saved : List VVal := []
  cache : Option Nat := none
  unknown : Bool := false
  body : Nat := 0
deriving DecidableEq, Repr

/-- VM-visible state: the identmap, the frame chain (usedargs of each
IdentLink, head = cs.stack, last = the root noalias frame whose usedargs is
(1 shl 25) - 1), cs.numargs, and the emitted diagnostics. -/
structure VMSt where
  idents : List AIdent
  frames : List Nat
  numargsV : Nat
  diags : List Diag
deriving DecidableEq, Repr

def dflIdent : AIdent := {}

def identGet (st : VMSt) (i : Nat) : AIdent := st.idents.getD i dflIdent

def identSet (st : VMSt) (i : Nat) (a : AIdent) : VMSt :=
  { st with idents := st.idents.set i a }

/-- Ident::push_arg (line 704): save the binding on the chain, install the
new value, clean_code. -/
def push_arg (a : AIdent) (v : VVal) : AIdent :=
  { a with val := v, saved := a.val :: a.saved, cache := none }

/-- Ident::pop_arg (line 714): restore the top saved binding, clean_code;
nothing on an empty chain. -/
def pop_arg (a : AIdent) : AIdent :=
  match a.saved with
  | [] => a
  | v :: rest => { a with val := v, saved := rest, cache := none }

/-- Ident::undo_arg (line 723): move the current binding out into the frame
slot (returned), restore the top saved binding, clean_code. The empty-chain
case is never reached (undo is applied only to used bits, whose chain is
nonempty). -/
def undo_arg (a : AIdent) : AIdent × VVal :=
  match a.saved with
  | [] => (a, a.val)
  | v :: rest => ({ a with val := v, saved := rest, cache := none }, a.val)

/-- Ident::redo_arg (line 732): push the current binding back on the chain
and reinstall the slot value, clean_code. -/
def redo_arg (a : AIdent) (stv : VVal) : AIdent :=
  { a with val := stv, saved := a.val :: a.saved, cache := none }

/-- The push_arg loop of CALLALIAS: push the call values onto identmap
entries base, base + 1, ... -/
def callPush (st : VMSt) (base : Nat) (vals : List VVal) : VMSt :=
  match vals with
  | [] => st
  | v :: rest => callPush (identSet st base (push_arg (identGet st base) v)) (base + 1) rest

/-- Pop identmap entries i, i + 1, ..., i + n - 1 (the pop_arg loop of
CALLALIAS). -/
def popRange (st : VMSt) (i n : Nat) : VMSt :=
  match n with
  | 0 => st
  | m + 1 => popRange (identSet st i (pop_arg (identGet st i))) (i + 1) m

/-- The extra-bits pop loop of CALLALIAS: pop every identmap entry from i
upward whose bit is set in used (bounded by the 32-bit width of the C
bitset). -/
def popExtraRange (st : VMSt) (used i n : Nat) : VMSt :=
  match n with
  | 0 => st
  | m + 1 =>
    popExtraRange (if Nat.testBit used i then identSet st i (pop_arg (identGet st i)) else st)
      used (i + 1) m

/-- The undo loop of cs_do_args (line 769), over the 32-bit bitset. -/
def undoRange (st : VMSt) (used i n : Nat) : VMSt :=
  match n with
  | 0 => st
  | m + 1 =>
    undoRange (if Nat.testBit used i then identSet st i (undo_arg (identGet st i)).1 else st)
      used (i + 1) m

/-- The redo loop of cs_do_args, reinstalling the slot values saved by the
undo loop. -/
def redoRange (st : VMSt) (used : Nat) (slots : Nat → VVal) (i n : Nat) : VMSt :=
  match n with
  | 0 => st
  | m + 1 =>
    redoRange (if Nat.testBit used i then identSet st i (redo_arg (identGet st i) (slots i)) else st)
      used slots (i + 1) m

/-- The three string bytes packed into a CODE_VALI or RET_STR word
(runcode case CODE_VALI at line 2863), up to the first NUL. -/
def valiStr (op : Nat) : List Char :=
  (([op / 2 ^ 8 % 256, op / 2 ^ 16 % 256, op / 2 ^ 24 % 256].takeWhile (fun b => b != 0)).map
    Char.ofNat)

/-- The return-type bits of an instruction word (op and CODE_RET_MASK). -/
def retOf (op : Nat) : Nat := op % 256 - op % 64

/-- Model of skipcode (src/cubescript.cc line 2530): walk the words to the
EXIT matching the current nesting, stepping over embedded string and jump
payloads; the result->force call at the EXIT is the identity (see tvForce)
and is dropped. Returns the index after the EXIT. -/
def skipcodeF (prog : List Nat) : Nat → Nat → Nat → Option Nat
  | 0, _, _ => none
  | fuel + 1, pc, depth =>
    let op := wordAt prog pc
    let opf := op % 256
    if opf = CODE_MACRO ∨ opf = CODE_VAL + RET_STR then
      skipcodeF prog fuel (pc + 1 + (op / 256) / 4 + 1) depth
    else if opf = CODE_BLOCK ∨ opf = CODE_JUMP ∨ opf = CODE_JUMP_TRUE
        ∨ opf = CODE_JUMP_FALSE ∨ opf = CODE_JUMP_RESULT_TRUE
        ∨ opf = CODE_JUMP_RESULT_FALSE then
      skipcodeF prog fuel (pc + 1 + op / 256) depth
    else if opf = CODE_ENTER ∨ opf = CODE_ENTER_RESULT then
      skipcodeF prog fuel (pc + 1) (depth + 1)
    else if opf % 64 = CODE_EXIT then
      if depth = 0 then some (pc + 1)
      else skipcodeF prog fuel (pc + 1) (depth - 1)
    else skipcodeF prog fuel (pc + 1) depth

/-- The entry phase of CALLALIAS (src/cubescript.cc line 3282): push the
call values onto the argument identifiers, save cs.numargs, enter the new
frame with usedargs (1 shl callargs) - 1, and resolve the alias's code -
from the cache when present, otherwise compiling the alias's current text
(the model returns the preallocated body index and records it in the
cache). Yields the state, the code index and the saved cs.numargs. -/
def callEnter (st : VMSt) (vals : List VVal) (callargs idx : Nat) : VMSt × Nat × Nat :=
  let st1 := callPush st 0 vals
  let oldN := st1.numargsV
  let st2 := { st1 with numargsV := callargs, frames := (2 ^ callargs - 1) :: st1.frames }
  let a2 := identGet st1 idx
  match a2.cache with
  | some p => (st2, p, oldN)
  | none => (identSet st2 idx { a2 with cache := some a2.body }, a2.body, oldN)

/-- The exit phase of CALLALIAS: leave the frame, pop the pushed arguments,
pop the extra argument bits the body claimed, restore cs.numargs. -/
def callExit (st4 : VMSt) (callargs oldN : Nat) : VMSt :=
  let st5 := { st4 with frames := st4.frames.tail }
  let st6 := popRange st5 0 callargs
  let st7 := popExtraRange st6 (st4.frames.headD 0) callargs (32 - callargs)
  { st7 with numargsV := oldN }

/-- Model of runcode (src/cubescript.cc line 2699) together with its inner
dispatch loop. `entry = true` is a fresh runcode invocation: the recursion
limit check against the thread-local rundepth (here the explicit parameter
`depth`), on overflow the "exceeded recursion limit" diagnostic plus
skipcode, otherwise the loop at depth + 1 with fresh args and a null result.
`entry = false` executes one instruction word and continues. Commands
(cb_cftv) are given by a pure table mapping the ident index to a function
from the argument slice to the optional value stored to cs.result. `none`
means the trace ran out of fuel or reached an unmodelled word - never a
completed run. -/
def runbody (prog : List Nat) (cmds : Nat → Option (List VVal → Option VVal))
    (skipfuel : Nat)
    (recur : Bool → Nat → VMSt → Nat → List VVal → VVal → Option (VMSt × VVal × Nat))
    (entry : Bool) (depth : Nat) (st : VMSt) (pc : Nat) (args : List VVal) (result : VVal) :
    Option (VMSt × VVal × Nat) :=
    if entry then
      if MaxRunDepth ≤ depth then
        match skipcodeF prog skipfuel pc 0 with
        | none => none
        | some pc2 =>
          some ({ st with diags := Diag.recursionLimit :: st.diags }, VVal.vnull, pc2)
      else
        recur false (depth + 1) st pc [] VVal.vnull
    else
      let op := wordAt prog pc
      let opc := op % 64
      let ret := retOf op
      let pay := op / 256
      if opc = CODE_START ∨ opc = CODE_OFFSET then
        recur false depth st (pc + 1) args result
      else if opc = CODE_POP then
        match args with
        | [] => none
        | _ :: rest => recur false depth st (pc + 1) rest result
      else if opc = CODE_ENTER then
        match recur true depth st (pc + 1) [] VVal.vnull with
        | none => none
        | some (st2, v, pc2) => recur false depth st2 pc2 (v :: args) result
      else if opc = CODE_ENTER_RESULT then
        match recur true depth st (pc + 1) [] VVal.vnull with
        | none => none
        | some (st2, v, pc2) => recur false depth st2 pc2 args v
      else if opc = CODE_EXIT then
        some (st, tvForce result ret, pc + 1)
      else if opc = CODE_RESULT_ARG then
        recur false depth st (pc + 1) (tvForce result ret :: args) VVal.vnull
      else if opc = CODE_VALI then
        if ret = RET_INT then
          recur false depth st (pc + 1)
            (VVal.vint (Int.fdiv (toInt32 op) 256) :: args) result
        else if ret = RET_STR then
          recur false depth st (pc + 1) (VVal.vstr (valiStr op) :: args) result
        else if ret = 0 then
          recur false depth st (pc + 1) (VVal.vnull :: args) result
        else none
      else if opc = CODE_VAL then
        if ret = RET_INT then
          recur false depth st (pc + 2)
            (VVal.vint (toInt32 (wordAt prog (pc + 1))) :: args) result
        else none
      else if opc = CODE_BLOCK then
        recur false depth st (pc + 1 + pay) (VVal.vcode (pc + 2) :: args) result
      else if opc = CODE_RESULT then
        match args with
        | [] => none
        | v :: rest => recur false depth st (pc + 1) rest (tvForce v ret)
      else if opc = CODE_COMV then
        let callargs := pay % 32
        if args.length < callargs then none
        else
          match cmds (op / 2 ^ 13) with
          | none => none
          | some impl =>
            let r1 := match impl ((args.take callargs).reverse) with
              | some v => v
              | none => VVal.vnull
            recur false depth st (pc + 1) (args.drop callargs) (tvForce r1 ret)
      else if opc = CODE_ALIASARG then
        match args, st.frames with
        | v :: rest, f :: fr =>
          if Nat.testBit f pay then
            recur false depth
              (identSet st pay { identGet st pay with val := v, cache := none }) (pc + 1) rest result
          else
            recur false depth
              { identSet st pay (push_arg (identGet st pay) v) with frames := (f ||| 2 ^ pay) :: fr }
              (pc + 1) rest result
        | _, _ => none
      else if opc = CODE_CALL ∨ opc = CODE_CALLARG then
        let idx := op / 2 ^ 13
        let callargs := pay % 32
        if args.length < callargs then none
        else if opc = CODE_CALL ∧ (identGet st idx).unknown then
          recur false depth
            { st with diags := Diag.unknownCommand :: st.diags }
            (pc + 1) (args.drop callargs) (tvForce VVal.vnull ret)
        else if opc = CODE_CALLARG ∧ ¬ Nat.testBit (st.frames.headD 0) idx then
          recur false depth st (pc + 1) (args.drop callargs)
            (tvForce VVal.vnull ret)
        else
          let e := callEnter st ((args.take callargs).reverse) callargs idx
          match recur true depth e.1 (e.2.1 + 1) [] VVal.vnull with
          | none => none
          | some (st4, res, _) =>
            recur false depth (callExit st4 callargs e.2.2) (pc + 1)
              (args.drop callargs) (tvForce res ret)
      else if opc = CODE_DO ∨ opc = CODE_DOARGS then
        if opc = CODE_DOARGS ∧ 2 ≤ st.frames.length then
          match args, st.frames with
          | VVal.vcode p :: rest, f :: prevu :: fr =>
            let slots : Nat → VVal := fun i => (identGet st i).val
            let stU := undoRange st f 0 32
            let stF := { stU with frames := prevu :: f :: prevu :: fr }
            match recur true depth stF p [] VVal.vnull with
            | none => none
            | some (stB, res, _) =>
              match stB.frames with
              | a2 :: f2 :: _ :: r3 =>
                let stC := { stB with frames := f2 :: a2 :: r3 }
                recur false depth (redoRange stC f2 slots 0 32) (pc + 1) rest
                  (tvForce res ret)
              | _ => none
          | _, _ => none
        else
          match args with
          | VVal.vcode p :: rest =>
            match recur true depth st p [] VVal.vnull with
            | none => none
            | some (st2, res, _) =>
              recur false depth st2 (pc + 1) rest (tvForce res ret)
          | _ => none
      else if opc = CODE_JUMP then
        recur false depth st (pc + 1 + pay) args result
      else if opc = CODE_JUMP_TRUE ∨ opc = CODE_JUMP_FALSE then
        match args with
        | [] => none
        | v :: rest =>
          let jump := if opc = CODE_JUMP_TRUE then vm_get_bool v else !vm_get_bool v
          recur false depth st (if jump then pc + 1 + pay else pc + 1) rest result
      else if opc = CODE_JUMP_RESULT_TRUE ∨ opc = CODE_JUMP_RESULT_FALSE then
        match args with
        | [] => none
        | VVal.vcode p :: rest =>
          match recur true depth st p [] VVal.vnull with
          | none => none
          | some (st2, res, _) =>
            let jump := if opc = CODE_JUMP_RESULT_TRUE then vm_get_bool res else !vm_get_bool res
            recur false depth st2 (if jump then pc + 1 + pay else pc + 1) rest res
        | v :: rest =>
          let jump := if opc = CODE_JUMP_RESULT_TRUE then vm_get_bool v else !vm_get_bool v
          recur false depth st (if jump then pc + 1 + pay else pc + 1) rest v
      else none

/-- The fuel-indexed tie of the loop: runbody with the recursive calls fed
back in. -/
def runstep (prog : List Nat) (cmds : Nat → Option (List VVal → Option VVal)) :
    Nat → Bool → Nat → VMSt → Nat → List VVal → VVal → Option (VMSt × VVal × Nat)
  | 0, _, _, _, _, _, _ => none
  | fuel + 1, entry, depth, st, pc, args, result =>
    runbody prog cmds (fuel + 1) (runstep prog cmds fuel) entry depth st pc args result

/-- The state of a fresh CsState: empty identmap, only the root noalias
frame (its usedargs is (1 shl MaxArguments) - 1, CsState constructor), no
diagnostics. -/
def vmRoot : VMSt := ⟨[], [2 ^ 25 - 1], 0, []⟩

/-- The accumulation CS_CMD_MATH performs for the int "+" command
(src/cubescript.cc line 4652): with two or more arguments fold the int
fields with +, with one argument that argument, with none the initval 0.
The int additions of the modelled runs stay in range; the 32-bit reduction
marks where C would overflow. -/
def wrap32 (z : Int) : Int := toInt32 (z % 2 ^ 32).toNat

def mathIntFold : List VVal → Int
  | [] => 0
  | [a] => viOf a
  | a :: rest => rest.foldl (fun acc x => wrap32 (acc + viOf x)) (viOf a)

/-- The "+" callback of this repository: the CS_CMD_MATH macro body
(line 4652) computes val but contains no store to cs.result (and its
CsState parameter is anonymous), so the command never produces a result. -/
def cmdPlusBuggy (_args : List VVal) : Option VVal := none

/-- Modelled from the spec: the "+" command as the spec describes it, the
accumulated sum becomes the command result. -/
def cmdPlusSpec (args : List VVal) : Option VVal :=
  some (VVal.vint (mathIntFold args))

/-- The bytecode gen_main emits for the source "|| 0 [+ 1 2] 99" (derived by
hand from compilestatements, case ID_OR at line 2357, with the "+" command
at identmap index 1): START; a BLOCK pushing the block for "0"; the
ID_OR jump rewriting turns the blocks for "[+ 1 2]" and "99" into
JUMP_RESULT_TRUE + ENTER chains with a final bare JUMP_RESULT_TRUE; EXIT.
Word 10 is CODE_COMV with ret NULL, two arguments and ident index 1. -/
def progOr : List Nat :=
  [0, 1040, 769, 76, 21, 9, 2877, 7, 332, 588, 8732, 9, 1341, 7, 25420, 21, 9, 61, 9]

def orTableBuggy : Nat → Option (List VVal → Option VVal) :=
  fun i => if i = 1 then some cmdPlusBuggy else none

def orTableSpec : Nat → Option (List VVal → Option VVal) :=
  fun i => if i = 1 then some cmdPlusSpec else none

/-- C5: on the bytecode of "|| 0 [+ 1 2] 99" (run from word 1, as
CsState::run_ret does), the VM with this repository's "+" yields int 99:
the math command computes 3 but never stores it, the block's result stays
null, null is falsy, so || falls through to 99. With the "+" of the spec
(result stored) the same bytecode yields int 3 and short-circuits before
99. The claimed answer 3 differs from the actual answer 99. -/
theorem c5_or_math_result_lost :
    runstep progOr orTableBuggy 100 true 0 vmRoot 1 [] VVal.vnull =
      some (vmRoot, VVal.vint 99, 19) ∧
    runstep progOr orTableSpec 100 true 0 vmRoot 1 [] VVal.vnull =
      some (vmRoot, VVal.vint 3, 19) ∧
    VVal.vint 99 ≠ VVal.vint 3 := by
  refine ⟨by decide, by decide, by decide⟩

/-- A bytecode program with n nested ENTER_RESULT levels around the typed
body "int 42" (VALI int 42, RESULT, EXIT ret INT), each level closed by its
own EXIT ret INT - the word shape the compiler emits for n nested
parenthesised groups with an int-typed innermost exit. -/
def progNest (n : Nat) : List Nat :=
  0 :: (List.replicate n 8 ++ ([10828, 21, 73] ++ List.replicate n 73))

/-- Modelled from the spec: the coercion the claim expects the aborted
block's exit to apply to the caller's result ("coerced per the block's exit
return type"): for an int exit, the usual force_int semantics (null becomes
int 0, a string is parsed, an int stays). -/
def forceClaimed : VVal → Nat → VVal
  | v, ty =>
    if ty = RET_INT then
      match v with
      | VVal.vint i => VVal.vint i
      | VVal.vstr s => VVal.vint (parseint s)
      | _ => VVal.vint 0
    else v

set_option maxHeartbeats 4000000

/-- getD on a replicate-append program segment: inside the replicate the
element is the replicated one, past it the lookup moves to the tail. -/
theorem getD_replicate_append (a d : Nat) :
    ∀ (n : Nat) (l : List Nat) (k : Nat),
      (List.replicate n a ++ l).getD k d = if k < n then a else l.getD (k - n) d := by
  intro n
  induction n with
  | zero =>
    intro l k
    simp
  | succ m ih =>
    intro l k
    rcases k with _ | k2
    · rw [List.replicate_succ, List.cons_append, List.getD_cons_zero, if_pos (by omega)]
    · rw [List.replicate_succ, List.cons_append, List.getD_cons_succ, ih l k2,
        show k2 + 1 - (m + 1) = k2 - m from by omega]
      by_cases hk : k2 < m
      · rw [if_pos hk, if_pos (by omega)]
      · rw [if_neg hk, if_neg (by omega)]

theorem progNest_getD_mid (n k : Nat) (h1 : 1 ≤ k) (h2 : k ≤ n) :
    wordAt (progNest n) k = 8 := by
  unfold wordAt progNest
  rcases k with _ | k2
  · omega
  rw [List.getD_cons_succ, getD_replicate_append, if_pos (by omega)]

theorem progNest_getD_exit (n k : Nat) (h1 : n + 3 ≤ k) (h2 : k ≤ 2 * n + 3) :
    wordAt (progNest n) k = 73 := by
  unfold wordAt progNest
  rcases k with _ | k2
  · omega
  rw [List.getD_cons_succ, getD_replicate_append, if_neg (by omega)]
  obtain ⟨m, hm⟩ : ∃ m, k2 - n = m + 2 := ⟨k2 - n - 2, by omega⟩
  rw [hm]
  show (73 :: List.replicate n 73 : List Nat).getD m 0 = 73
  rcases m with _ | m2
  · rfl
  rw [List.getD_cons_succ, ← List.append_nil (List.replicate n 73), getD_replicate_append,
    if_pos (by omega)]

/-- The successful nested run, by induction on the nesting level: entering
level 254 - i (at word 255 - i of the 254-deep nest) with any sufficient
fuel yields int 42 at the exit word 258 + i. -/
theorem runNest_ok : ∀ i, i ≤ 254 → ∀ f,
    runstep (progNest 254) (fun _ => none) (f + 2 * i + 4) true (254 - i) vmRoot (255 - i) []
      VVal.vnull = some (vmRoot, VVal.vint 42, 258 + i) := by
  intro i
  induction i with
  | zero =>
    intro _ f
    rfl
  | succ i ih =>
    intro hle f
    have hw8 : wordAt (progNest 254) (255 - (i + 1)) = 8 :=
      progNest_getD_mid 254 (255 - (i + 1)) (by omega) (by omega)
    have hw73 : wordAt (progNest 254) (258 + i) = 73 :=
      progNest_getD_exit 254 (258 + i) (by omega) (by omega)
    rw [show f + 2 * (i + 1) + 4 = f + 2 * i + 5 + 1 from by ring]
    rw [runstep]
    rw [runbody.eq_def]
    simp only [eq_self_iff_true, if_true, ite_true]
    rw [if_neg (show ¬ MaxRunDepth ≤ 254 - (i + 1) from by unfold MaxRunDepth; omega)]
    rw [show f + 2 * i + 5 = f + 2 * i + 4 + 1 from by ring]
    rw [runstep]
    rw [runbody.eq_def]
    simp only [Bool.false_eq_true, if_false, ite_false]
    rw [hw8]
    rw [if_neg (by decide)]
    rw [if_neg (by decide)]
    rw [if_neg (by decide)]
    rw [if_pos (by decide)]
    rw [show 254 - (i + 1) + 1 = 254 - i from by omega,
      show 255 - (i + 1) + 1 = 255 - i from by omega]
    rw [ih (by omega) f]
    dsimp only
    rw [show f + 2 * i + 4 = f + 2 * i + 3 + 1 from by ring]
    rw [runstep]
    rw [runbody.eq_def]
    simp only [Bool.false_eq_true, if_false, ite_false]
    rw [hw73]
    rw [if_neg (by decide)]
    rw [if_neg (by decide)]
    rw [if_neg (by decide)]
    rw [if_neg (by decide)]
    rw [if_pos (by decide)]
    rfl

/-- The aborted nested run, by induction on the nesting level: in the
255-deep nest the innermost entry is one past the cap, so it records the
diagnostic and skips; every enclosing level passes the null result through
its int-typed exit untouched. -/
theorem runNest_abort : ∀ i, i ≤ 255 → ∀ f,
    runstep (progNest 255) (fun _ => none) (f + 2 * i + 4) true (255 - i) vmRoot (256 - i) []
      VVal.vnull =
      some ({ vmRoot with diags := [Diag.recursionLimit] }, VVal.vnull, 259 + i) := by
  intro i
  induction i with
  | zero =>
    intro _ f
    rfl
  | succ i ih =>
    intro hle f
    have hw8 : wordAt (progNest 255) (256 - (i + 1)) = 8 :=
      progNest_getD_mid 255 (256 - (i + 1)) (by omega) (by omega)
    have hw73 : wordAt (progNest 255) (259 + i) = 73 :=
      progNest_getD_exit 255 (259 + i) (by omega) (by omega)
    rw [show f + 2 * (i + 1) + 4 = f + 2 * i + 5 + 1 from by ring]
    rw [runstep]
    rw [runbody.eq_def]
    simp only [eq_self_iff_true, if_true, ite_true]
    rw [if_neg (show ¬ MaxRunDepth ≤ 255 - (i + 1) from by unfold MaxRunDepth; omega)]
    rw [show f + 2 * i + 5 = f + 2 * i + 4 + 1 from by ring]
    rw [runstep]
    rw [runbody.eq_def]
    simp only [Bool.false_eq_true, if_false, ite_false]
    rw [hw8]
    rw [if_neg (by decide)]
    rw [if_neg (by decide)]
    rw [if_neg (by decide)]
    rw [if_pos (by decide)]
    rw [show 255 - (i + 1) + 1 = 255 - i from by omega,
      show 256 - (i + 1) + 1 = 256 - i from by omega]
    rw [ih (by omega) f]
    dsimp only
    rw [show f + 2 * i + 4 = f + 2 * i + 3 + 1 from by ring]
    rw [runstep]
    rw [runbody.eq_def]
    simp only [Bool.false_eq_true, if_false, ite_false]
    rw [hw73]
    rw [if_neg (by decide)]
    rw [if_neg (by decide)]
    rw [if_neg (by decide)]
    rw [if_neg (by decide)]
    rw [if_pos (by decide)]
    rfl

/-- C7: with 254 nested ENTER_RESULT levels the innermost block runs at
rundepth 255 = MaxRunDepth (the deepest allowed) and the value 42 comes back
with no diagnostic. With 255 levels the innermost invocation is entered one
past the cap: the diagnostic is emitted and skipcode steps past the block -
but the caller's result is NOT coerced to the block's exit type: force is a
no-op (tvForce), so the result is null where the claim expects int 0
(forceClaimed). -/
theorem c7_recursion_cap :
    runstep (progNest 254) (fun _ => none) 3000 true 0 vmRoot 1 [] VVal.vnull =
      some (vmRoot, VVal.vint 42, 512) ∧
    runstep (progNest 255) (fun _ => none) 3000 true 0 vmRoot 1 [] VVal.vnull =
      some ({ vmRoot with diags := [Diag.recursionLimit] }, VVal.vnull, 514) ∧
    tvForce VVal.vnull RET_INT = VVal.vnull ∧
    forceClaimed VVal.vnull RET_INT = VVal.vint 0 ∧
    VVal.vnull ≠ VVal.vint 0 := by
  refine ⟨?_, ?_, by decide, by decide, by decide⟩
  · have h := runNest_ok 254 (by omega) 2488
    norm_num at h
    exact h
  · have h := runNest_abort 255 (by omega) 2486
    norm_num at h
    exact h

/-- A test setup for alias calls: word 1 is CODE_CALL of the alias at
identmap index 25 with zero call arguments, word 2 exits. Words 3..10 hold
that alias's compiled body (the bytecode CsState::compile produces for
"doargs [arg1 = 9]", refcounted START word included): BLOCK/OFFSET around
[VALI str "9"; ALIASARG arg1], then DOARGS and the closing EXIT. -/
def progDoargs : List Nat :=
  [0, 204851, 9, 256, 1040, 769, 14796, 50, 9, 57, 9]

/-- Identmap for the doargs test: arg1 (index 0) currently bound to int 7
with one saved binding on its chain - the shape after a caller's CALLALIAS
pushed the call argument 7 - and the called alias at index 25 with its body
cached at word 3. -/
def c4idents : List AIdent :=
  ⟨VVal.vint 7, [VVal.vnull], none, false, 0⟩ ::
    (List.replicate 24 dflIdent ++ [⟨VVal.vnull, [], some 3, false, 3⟩])

/-- The same identmap after the call: arg1's binding was overwritten in
place through the caller's frame. -/
def c4identsAfter : List AIdent :=
  ⟨VVal.vstr ['9'], [VVal.vnull], none, false, 0⟩ ::
    (List.replicate 24 dflIdent ++ [⟨VVal.vnull, [], some 3, false, 3⟩])

/-- The caller's state: one argument frame with usedargs bit 0 set (arg1 in
use, bound to 7) above the root frame. -/
def c4st : VMSt := ⟨c4idents, [1, 2 ^ 25 - 1], 1, []⟩

/-- C4, counterexample: calling an alias whose body is "doargs [arg1 = 9]"
returns with the caller's usedargs bitset intact (still 1), but arg1 - whose
bit was set before the call - is now bound to "9" instead of its pre-call
binding 7: cs_do_args runs the block against the caller's frame, and set_arg
overwrites the used argument in place, so the callee mutates the caller's
binding with nothing restoring it when the call returns. -/
theorem c4_doargs_mutates_caller :
    runstep progDoargs (fun _ => none) 200 true 0 c4st 1 [] VVal.vnull =
      some (⟨c4identsAfter, [1, 2 ^ 25 - 1], 1, []⟩, VVal.vnull, 3) ∧
    (identGet c4st 0).val = VVal.vint 7 ∧
    (identGet ⟨c4identsAfter, [1, 2 ^ 25 - 1], 1, []⟩ 0).val = VVal.vstr ['9'] ∧
    VVal.vstr ['9'] ≠ VVal.vint 7 := by
  refine ⟨by decide, by decide, by decide, by decide⟩

/-- Two identifiers carrying the same binding (value and saved chain); the
code cache is deliberately not compared - push_arg/pop_arg always
clean_code, so the cache is invalidated, not restored. -/
def sameBinding (a b : AIdent) : Prop := a.val = b.val ∧ a.saved = b.saved

theorem sameBinding_refl (a : AIdent) : sameBinding a a := ⟨rfl, rfl⟩

theorem sameBinding_trans {a b c : AIdent} (h1 : sameBinding a b) (h2 : sameBinding b c) :
    sameBinding a c := ⟨h1.1.trans h2.1, h1.2.trans h2.2⟩

theorem getD_set_self : ∀ (l : List AIdent) (i : Nat) (a : AIdent), i < l.length →
    (l.set i a).getD i dflIdent = a := by
  intro l
  induction l with
  | nil => intro i a h; simp at h
  | cons x xs ih =>
    intro i a h
    cases i with
    | zero => rfl
    | succ j => exact ih j a (by simpa using h)

theorem getD_set_ne : ∀ (l : List AIdent) (i j : Nat) (a : AIdent), i ≠ j →
    (l.set i a).getD j dflIdent = l.getD j dflIdent := by
  intro l
  induction l with
  | nil => intro i j a _; rfl
  | cons x xs ih =>
    intro i j a hne
    cases i with
    | zero =>
      cases j with
      | zero => exact absurd rfl hne
      | succ j2 => rfl
    | succ i2 =>
      cases j with
      | zero => rfl
      | succ j2 => exact ih i2 j2 a (by omega)

theorem getD_of_le_length (l : List AIdent) (i : Nat) (h : l.length ≤ i) :
    l.getD i dflIdent = dflIdent := by
  rw [List.getD_eq_getElem?_getD, List.getElem?_eq_none (by omega)]
  rfl

theorem identGet_frames_irrel (st : VMSt) (fr : List Nat) (i : Nat) :
    identGet { st with frames := fr } i = identGet st i := rfl

theorem identGet_set_self (st : VMSt) (i : Nat) (a : AIdent) (h : i < st.idents.length) :
    identGet (identSet st i a) i = a :=
  getD_set_self st.idents i a h

theorem identGet_set_ne (st : VMSt) (i j : Nat) (a : AIdent) (h : i ≠ j) :
    identGet (identSet st i a) j = identGet st j :=
  getD_set_ne st.idents i j a h

theorem pop_arg_dfl : pop_arg dflIdent = dflIdent := rfl

theorem identGet_set_pop (st : VMSt) (i : Nat) :
    identGet (identSet st i (pop_arg (identGet st i))) i = pop_arg (identGet st i) := by
  by_cases h : i < st.idents.length
  · exact identGet_set_self st i _ h
  · have h1 : identGet st i = dflIdent := getD_of_le_length st.idents i (by omega)
    have h2 : st.idents.set i (pop_arg (identGet st i)) = st.idents :=
      List.set_eq_of_length_le (by omega)
    show (st.idents.set i (pop_arg (identGet st i))).getD i dflIdent = _
    rw [h2]
    show identGet st i = pop_arg (identGet st i)
    rw [h1, pop_arg_dfl]

theorem identSet_length (st : VMSt) (i : Nat) (a : AIdent) :
    (identSet st i a).idents.length = st.idents.length := by
  simp [identSet]

theorem identSet_frames (st : VMSt) (i : Nat) (a : AIdent) :
    (identSet st i a).frames = st.frames := rfl

theorem identSet_numargs (st : VMSt) (i : Nat) (a : AIdent) :
    (identSet st i a).numargsV = st.numargsV := rfl

theorem popRange_facts : ∀ (n : Nat) (st : VMSt) (i : Nat),
    (popRange st i n).idents.length = st.idents.length ∧
    (popRange st i n).frames = st.frames ∧
    (popRange st i n).numargsV = st.numargsV ∧
    ∀ j, identGet (popRange st i n) j =
      if i ≤ j ∧ j < i + n then pop_arg (identGet st j) else identGet st j := by
  intro n
  induction n with
  | zero =>
    intro st i
    refine ⟨rfl, rfl, rfl, fun j => ?_⟩
    rw [if_neg (by omega)]
    rfl
  | succ m ih =>
    intro st i
    rw [popRange]
    obtain ⟨l1, f1, n1, p1⟩ := ih (identSet st i (pop_arg (identGet st i))) (i + 1)
    refine ⟨by rw [l1, identSet_length], by rw [f1, identSet_frames],
      by rw [n1, identSet_numargs], fun j => ?_⟩
    rw [p1 j]
    by_cases hj : j = i
    · subst hj
      rw [if_neg (by omega), if_pos (by omega), identGet_set_pop]
    · rw [identGet_set_ne st i j _ (by omega)]
      by_cases hr : i + 1 ≤ j ∧ j < i + 1 + m
      · rw [if_pos hr, if_pos (by omega)]
      · rw [if_neg hr, if_neg (by omega)]

theorem popExtraRange_facts : ∀ (n : Nat) (st : VMSt) (used i : Nat),
    (popExtraRange st used i n).idents.length = st.idents.length ∧
    (popExtraRange st used i n).frames = st.frames ∧
    (popExtraRange st used i n).numargsV = st.numargsV ∧
    ∀ j, identGet (popExtraRange st used i n) j =
      if i ≤ j ∧ j < i + n ∧ Nat.testBit used j then pop_arg (identGet st j)
      else identGet st j := by
  intro n
  induction n with
  | zero =>
    intro st used i
    refine ⟨rfl, rfl, rfl, fun j => ?_⟩
    rw [if_neg (by omega)]
    rfl
  | succ m ih =>
    intro st used i
    rw [popExtraRange]
    obtain ⟨l1, f1, n1, p1⟩ :=
      ih (if Nat.testBit used i then identSet st i (pop_arg (identGet st i)) else st) used (i + 1)
    have hfr : (if Nat.testBit used i then identSet st i (pop_arg (identGet st i)) else st).frames
        = st.frames := by
      split_ifs <;> rfl
    have hln : (if Nat.testBit used i then identSet st i (pop_arg (identGet st i)) else st).idents.length
        = st.idents.length := by
      split_ifs
      · rw [identSet_length]
      · rfl
    have hna : (if Nat.testBit used i then identSet st i (pop_arg (identGet st i)) else st).numargsV
        = st.numargsV := by
      split_ifs <;> rfl
    refine ⟨by rw [l1, hln], by rw [f1, hfr], by rw [n1, hna], fun j => ?_⟩
    rw [p1 j]
    by_cases hj : j = i
    · subst hj
      rw [if_neg (by omega)]
      by_cases hb : Nat.testBit used j
      · rw [if_pos hb, identGet_set_pop, if_pos ⟨by omega, by omega, hb⟩]
      · rw [if_neg hb, if_neg (by intro hx; exact hb hx.2.2)]
    · have hgj : (if Nat.testBit used i then identSet st i (pop_arg (identGet st i)) else st
          : VMSt).idents.getD j dflIdent = identGet st j := by
        split_ifs
        · exact identGet_set_ne st i j _ (by omega)
        · rfl
      show (if i + 1 ≤ j ∧ j < i + 1 + m ∧ Nat.testBit used j then
          pop_arg ((if Nat.testBit used i then identSet st i (pop_arg (identGet st i)) else st
            : VMSt).idents.getD j dflIdent)
        else (if Nat.testBit used i then identSet st i (pop_arg (identGet st i)) else st
            : VMSt).idents.getD j dflIdent) = _
      rw [hgj]
      by_cases hr : i + 1 ≤ j ∧ j < i + 1 + m ∧ Nat.testBit used j
      · rw [if_pos hr, if_pos ⟨by omega, by omega, hr.2.2⟩]
      · rw [if_neg hr, if_neg (by intro hx; exact hr ⟨by omega, by omega, hx.2.2⟩)]

theorem callPush_facts : ∀ (vals : List VVal) (st : VMSt) (base : Nat),
    (callPush st base vals).idents.length = st.idents.length ∧
    (callPush st base vals).frames = st.frames ∧
    (callPush st base vals).numargsV = st.numargsV ∧
    (∀ j, j < base ∨ base + vals.length ≤ j →
      identGet (callPush st base vals) j = identGet st j) ∧
    (base + vals.length ≤ st.idents.length →
      ∀ j, base ≤ j → j < base + vals.length →
        ∃ v, identGet (callPush st base vals) j = push_arg (identGet st j) v) := by
  intro vals
  induction vals with
  | nil =>
    intro st base
    exact ⟨rfl, rfl, rfl, fun j _ => rfl, fun _ j h1 h2 => by simp at h2; omega⟩
  | cons v rest ih =>
    intro st base
    rw [callPush]
    obtain ⟨l1, f1, n1, out1, in1⟩ := ih (identSet st base (push_arg (identGet st base) v)) (base + 1)
    refine ⟨by rw [l1, identSet_length], by rw [f1, identSet_frames],
      by rw [n1, identSet_numargs], ?_, ?_⟩
    · intro j hj
      rw [out1 j (by simp at hj ⊢; omega), identGet_set_ne st base j _ (by simp at hj; omega)]
    · intro hlen j h1 h2
      by_cases hj : j = base
      · subst hj
        refine ⟨v, ?_⟩
        rw [out1 j (by omega), identGet_set_self st j _ (by simp at hlen; omega)]
      · obtain ⟨w, hw⟩ := in1 (by rw [identSet_length]; simp at hlen ⊢; omega) j (by omega)
          (by simp at h2 ⊢; omega)
        refine ⟨w, ?_⟩
        rw [hw, identGet_set_ne st base j _ (by omega)]

/-- The frame and argument-stack discipline one runcode invocation obeys
(relative to the frame chain it is entered with): the frames below the
current one are untouched; the current frame's usedargs only gains bits,
and only bits of argument identifiers; an argument in use keeps its saved
chain (its value may be reassigned in place); an argument freshly claimed
gains exactly one saved binding - its previous one; an argument never
touched keeps value and chain. -/
structure VMInv (st st' : VMSt) : Prop where
  ilen : st'.idents.length = st.idents.length
  flen : st'.frames.length = st.frames.length
  ftail : st'.frames.tail = st.frames.tail
  bitsUp : ∀ i, Nat.testBit (st.frames.headD 0) i → Nat.testBit (st'.frames.headD 0) i
  bitsNew : ∀ i, Nat.testBit (st'.frames.headD 0) i →
    Nat.testBit (st.frames.headD 0) i ∨ i < MaxArguments
  savedPres : ∀ i, Nat.testBit (st.frames.headD 0) i →
    (identGet st' i).saved = (identGet st i).saved
  savedNew : ∀ i, ¬ Nat.testBit (st.frames.headD 0) i →
    Nat.testBit (st'.frames.headD 0) i →
    (identGet st' i).saved = (identGet st i).val :: (identGet st i).saved
  untouched : ∀ i, ¬ Nat.testBit (st.frames.headD 0) i →
    ¬ Nat.testBit (st'.frames.headD 0) i → sameBinding (identGet st' i) (identGet st i)

theorem VMInv.of_eq {st st' : VMSt} (hi : st'.idents = st.idents)
    (hf : st'.frames = st.frames) : VMInv st st' := by
  have hg : ∀ i, identGet st' i = identGet st i := by
    intro i
    unfold identGet
    rw [hi]
  refine ⟨by rw [hi], by rw [hf], by rw [hf], ?_, ?_, ?_, ?_, ?_⟩
  · intro i h
    rw [hf]
    exact h
  · intro i h
    rw [hf] at h
    exact Or.inl h
  · intro i _
    rw [hg]
  · intro i h1 h2
    rw [hf] at h2
    exact absurd h2 h1
  · intro i _ _
    rw [hg]
    exact sameBinding_refl _

theorem VMInv.refl (st : VMSt) : VMInv st st := VMInv.of_eq (Eq.refl _) (Eq.refl _)

theorem VMInv.trans {s1 s2 s3 : VMSt} (a : VMInv s1 s2) (b : VMInv s2 s3) : VMInv s1 s3 := by
  refine ⟨b.ilen.trans a.ilen, b.flen.trans a.flen, b.ftail.trans a.ftail, ?_, ?_, ?_, ?_, ?_⟩
  · exact fun i h => b.bitsUp i (a.bitsUp i h)
  · intro i h
    rcases b.bitsNew i h with h2 | h2
    · exact a.bitsNew i h2
    · exact Or.inr h2
  · intro i h
    rw [b.savedPres i (a.bitsUp i h), a.savedPres i h]
  · intro i h1 h2
    by_cases hm : Nat.testBit (s2.frames.headD 0) i
    · rw [b.savedPres i hm, a.savedNew i h1 hm]
    · obtain ⟨hv, hs⟩ := a.untouched i h1 hm
      rw [b.savedNew i hm h2, hv, hs]
  · intro i h1 h2
    have hm : ¬ Nat.testBit (s2.frames.headD 0) i := fun hx => h2 (b.bitsUp i hx)
    exact sameBinding_trans (b.untouched i hm h2) (a.untouched i h1 hm)

/-- Well-formedness of a word for the restoration property: no doargs (which
writes through to the caller's frame by design), argument-alias assignments
target argument indices, and calls pass at most MaxArguments arguments -
all guaranteed for compiler-emitted instruction words. -/
def wfWord (w : Nat) : Prop :=
  w % 64 ≠ CODE_DOARGS ∧
  (w % 64 = CODE_ALIASARG → w / 256 < MaxArguments) ∧
  ((w % 64 = CODE_CALL ∨ w % 64 = CODE_CALLARG) → w / 256 % 32 ≤ MaxArguments)

def wfProg (prog : List Nat) : Prop := ∀ w ∈ prog, wfWord w

theorem wfWord_zero : wfWord 0 := by
  refine ⟨by decide, by decide, by decide⟩

theorem wf_wordAt {prog : List Nat} (hwf : wfProg prog) (pc : Nat) :
    wfWord (wordAt prog pc) := by
  rw [wordAt, List.getD_eq_getElem?_getD]
  rcases hpc : prog[pc]? with _ | x
  · exact wfWord_zero
  · have hlt : pc < prog.length := by
      by_contra hge
      rw [List.getElem?_eq_none (by omega)] at hpc
      exact Option.noConfusion hpc
    have hx : x ∈ prog := by
      have hm := List.getElem_mem hlt
      rw [List.getElem?_eq_getElem hlt, Option.some.injEq] at hpc
      rwa [hpc] at hm
    simpa using hwf x hx

theorem pop_arg_of_saved (a : AIdent) (v0 : VVal) (s0 : List VVal) (h : a.saved = v0 :: s0) :
    (pop_arg a).val = v0 ∧ (pop_arg a).saved = s0 := by
  unfold pop_arg
  rw [h]
  exact ⟨rfl, rfl⟩

theorem testBit_ones (c i : Nat) : Nat.testBit (2 ^ c - 1) i = decide (i < c) := by
  rw [Nat.testBit_two_pow_sub_one]

/-- The pop phase of CALLALIAS undoes what the push phase and the body did
to the argument identifiers: after popping the c pushed arguments and the
extra bits the body claimed in the callee frame, every identifier carries
its pre-call binding (the cache aside). -/
theorem callAlias_restore (st st3 st4 : VMSt) (c : Nat)
    (hc : c ≤ MaxArguments)
    (h3frames : st3.frames = (2 ^ c - 1) :: st.frames)
    (h3point : ∀ j, (j < c → (identGet st3 j).saved =
        (identGet st j).val :: (identGet st j).saved) ∧
      (c ≤ j → sameBinding (identGet st3 j) (identGet st j)))
    (hinv : VMInv st3 st4) :
    st4.frames.tail = st.frames ∧
    ∀ j, sameBinding
      (identGet (popExtraRange (popRange { st4 with frames := st4.frames.tail } 0 c)
        (st4.frames.headD 0) c (32 - c)) j)
      (identGet st j) := by
  have hft : st4.frames.tail = st.frames := by
    rw [hinv.ftail, h3frames]
    rfl
  have hhead3 : st3.frames.headD 0 = 2 ^ c - 1 := by rw [h3frames]; rfl
  obtain ⟨_, _, _, hP⟩ := popRange_facts c { st4 with frames := st4.frames.tail } 0
  obtain ⟨_, _, _, hQ⟩ := popExtraRange_facts (32 - c)
    (popRange { st4 with frames := st4.frames.tail } 0 c) (st4.frames.headD 0) c
  refine ⟨hft, fun j => ?_⟩
  by_cases hj : j < c
  · rw [hQ j, if_neg (by omega), hP j, if_pos (by omega), identGet_frames_irrel]
    have hbit : Nat.testBit (st3.frames.headD 0) j := by
      rw [hhead3, testBit_ones]
      simpa using hj
    have hs4 : (identGet st4 j).saved = (identGet st j).val :: (identGet st j).saved := by
      rw [hinv.savedPres j hbit, (h3point j).1 hj]
    obtain ⟨hv, hs⟩ := pop_arg_of_saved _ _ _ hs4
    exact ⟨hv, hs⟩
  · have hnb : ¬ Nat.testBit (st3.frames.headD 0) j := by
      rw [hhead3, testBit_ones]
      simpa using hj
    by_cases hb : Nat.testBit (st4.frames.headD 0) j
    · have hj25 : j < MaxArguments := by
        rcases hinv.bitsNew j hb with h2 | h2
        · exact absurd h2 hnb
        · exact h2
      rw [hQ j, if_pos ⟨by omega, by unfold MaxArguments at hj25 hc; omega, hb⟩,
        hP j, if_neg (by omega), identGet_frames_irrel]
      have hs4 : (identGet st4 j).saved = (identGet st j).val :: (identGet st j).saved := by
        rw [hinv.savedNew j hnb hb]
        obtain ⟨hv3, hs3⟩ := (h3point j).2 (by omega)
        rw [hv3, hs3]
      obtain ⟨hv, hs⟩ := pop_arg_of_saved _ _ _ hs4
      exact ⟨hv, hs⟩
    · rw [hQ j, if_neg (by intro hx; exact hb hx.2.2), hP j, if_neg (by omega),
        identGet_frames_irrel]
      exact sameBinding_trans (hinv.untouched j hnb hb) ((h3point j).2 (by omega))

theorem identGet_set_general (st : VMSt) (i : Nat) (a : AIdent) :
    identGet (identSet st i a) i = if i < st.idents.length then a else identGet st i := by
  by_cases h : i < st.idents.length
  · rw [if_pos h, identGet_set_self st i a h]
  · rw [if_neg h]
    show (st.idents.set i a).getD i dflIdent = _
    rw [List.set_eq_of_length_le (by omega)]
    rfl

theorem vmInv_of_binding (st st' : VMSt) (hfr : st'.frames = st.frames)
    (hl : st'.idents.length = st.idents.length)
    (hsb : ∀ j, sameBinding (identGet st' j) (identGet st j)) : VMInv st st' := by
  refine ⟨hl, by rw [hfr], by rw [hfr], ?_, ?_, ?_, ?_, ?_⟩
  · intro i hb
    rw [hfr]
    exact hb
  · intro i hb
    rw [hfr] at hb
    exact Or.inl hb
  · intro i _
    exact (hsb i).2
  · intro i h1 h2
    rw [hfr] at h2
    exact absurd h2 h1
  · intro i _ _
    exact hsb i

theorem vmInv_inplace (st : VMSt) (k : Nat) (a : AIdent)
    (hbit : Nat.testBit (st.frames.headD 0) k)
    (hsv : a.saved = (identGet st k).saved) :
    VMInv st (identSet st k a) := by
  have hfr : (identSet st k a).frames = st.frames := identSet_frames st k a
  refine ⟨identSet_length st k a, by rw [hfr], by rw [hfr], ?_, ?_, ?_, ?_, ?_⟩
  · intro i hb
    rw [hfr]
    exact hb
  · intro i hb
    rw [hfr] at hb
    exact Or.inl hb
  · intro i _
    by_cases hik : i = k
    · subst hik
      rw [identGet_set_general]
      split_ifs
      · rw [hsv]
      · rfl
    · rw [identGet_set_ne st k i a (by omega)]
  · intro i h1 h2
    rw [hfr] at h2
    exact absurd h2 h1
  · intro i h1 _
    have hik : i ≠ k := fun he => h1 (he ▸ hbit)
    rw [identGet_set_ne st k i a (by omega)]
    exact sameBinding_refl _

theorem vmInv_aliaspush (st : VMSt) (f : Nat) (fr : List Nat) (k : Nat) (v : VVal)
    (hfr : st.frames = f :: fr) (hbit : ¬ Nat.testBit f k) (hk : k < MaxArguments)
    (hklen : k < st.idents.length) :
    VMInv st { identSet st k (push_arg (identGet st k) v) with frames := (f ||| 2 ^ k) :: fr } := by
  have hga : ∀ j, j ≠ k →
      identGet { identSet st k (push_arg (identGet st k) v) with
        frames := (f ||| 2 ^ k) :: fr } j = identGet st j := by
    intro j hj
    show identGet (identSet st k (push_arg (identGet st k) v)) j = _
    exact identGet_set_ne st k j _ (by omega)
  have hgk : identGet { identSet st k (push_arg (identGet st k) v) with
      frames := (f ||| 2 ^ k) :: fr } k = push_arg (identGet st k) v := by
    show identGet (identSet st k (push_arg (identGet st k) v)) k = _
    exact identGet_set_self st k _ hklen
  have hh2 : ({ identSet st k (push_arg (identGet st k) v) with
      frames := (f ||| 2 ^ k) :: fr } : VMSt).frames.headD 0 = f ||| 2 ^ k := rfl
  have hh1 : st.frames.headD 0 = f := by rw [hfr]; rfl
  refine ⟨by rw [show ({ identSet st k (push_arg (identGet st k) v) with
      frames := (f ||| 2 ^ k) :: fr } : VMSt).idents = (identSet st k (push_arg (identGet st k) v)).idents from rfl, identSet_length],
    by rw [hfr]; rfl, by rw [hfr]; rfl, ?_, ?_, ?_, ?_, ?_⟩
  · intro i hb
    rw [hh2, Nat.testBit_or]
    rw [hh1] at hb
    simp [hb]
  · intro i hb
    rw [hh2, Nat.testBit_or, Bool.or_eq_true] at hb
    rcases hb with hb | hb
    · rw [hh1]
      exact Or.inl hb
    · rw [Nat.testBit_two_pow] at hb
      have : k = i := by simpa using hb
      exact Or.inr (this ▸ hk)
  · intro i hb
    rw [hh1] at hb
    have hik : i ≠ k := fun he => hbit (he ▸ hb)
    rw [hga i hik]
  · intro i h1 h2
    rw [hh1] at h1
    rw [hh2, Nat.testBit_or, Bool.or_eq_true] at h2
    rcases h2 with h2 | h2
    · exact absurd h2 h1
    · rw [Nat.testBit_two_pow] at h2
      have hik : k = i := by simpa using h2
      subst hik
      rw [hgk]
      rfl
  · intro i h1 h2
    rw [hh2, Nat.testBit_or, Bool.or_eq_true] at h2
    have hik : i ≠ k := by
      intro he
      subst he
      exact h2 (Or.inr (by rw [Nat.testBit_two_pow]; simp))
    rw [hga i hik]
    exact sameBinding_refl _

theorem callEnter_facts (st : VMSt) (vals : List VVal) (callargs idx : Nat)
    (hlen : MaxArguments ≤ st.idents.length) (hv : vals.length = callargs)
    (hc : callargs ≤ MaxArguments) :
    (callEnter st vals callargs idx).1.frames = (2 ^ callargs - 1) :: st.frames ∧
    (callEnter st vals callargs idx).1.idents.length = st.idents.length ∧
    (callEnter st vals callargs idx).2.2 = st.numargsV ∧
    ∀ j, (j < callargs → (identGet (callEnter st vals callargs idx).1 j).saved =
        (identGet st j).val :: (identGet st j).saved) ∧
      (callargs ≤ j → sameBinding (identGet (callEnter st vals callargs idx).1 j)
        (identGet st j)) := by
  obtain ⟨pl, pf, pn, pout, pin⟩ := callPush_facts vals st 0
  have hrange : 0 + vals.length ≤ st.idents.length := by
    unfold MaxArguments at hlen hc
    omega
  have hpoint : ∀ j, (j < callargs → (identGet (callPush st 0 vals) j).saved =
      (identGet st j).val :: (identGet st j).saved) ∧
      (callargs ≤ j → sameBinding (identGet (callPush st 0 vals) j) (identGet st j)) := by
    intro j
    constructor
    · intro hj
      obtain ⟨w2, hw2⟩ := pin hrange j (by omega) (by omega)
      rw [hw2]
      rfl
    · intro hj
      rw [pout j (by omega)]
      exact sameBinding_refl _
  have hg2 : ∀ j, identGet { callPush st 0 vals with numargsV := callargs, frames := (2 ^ callargs - 1) :: (callPush st 0 vals).frames } j = identGet (callPush st 0 vals) j := fun _ => rfl
  have hl2 : ({ callPush st 0 vals with numargsV := callargs, frames := (2 ^ callargs - 1) :: (callPush st 0 vals).frames } : VMSt).idents.length = st.idents.length := by
    show (callPush st 0 vals).idents.length = _
    rw [pl]
  unfold callEnter
  rcases hca : (identGet (callPush st 0 vals) idx).cache with _ | p
  · simp only [hca]
    refine ⟨by rw [identSet_frames]; show (2 ^ callargs - 1) :: (callPush st 0 vals).frames = _; rw [pf], by rw [identSet_length, hl2], by show (callPush st 0 vals).numargsV = _; rw [pn], ?_⟩
    intro j
    by_cases hj : idx = j
    · subst hj
      have hgj : (identGet (identSet { callPush st 0 vals with numargsV := callargs, frames := (2 ^ callargs - 1) :: (callPush st 0 vals).frames } idx { identGet (callPush st 0 vals) idx with cache := some (identGet (callPush st 0 vals) idx).body }) idx).val = (identGet (callPush st 0 vals) idx).val ∧ (identGet (identSet { callPush st 0 vals with numargsV := callargs, frames := (2 ^ callargs - 1) :: (callPush st 0 vals).frames } idx { identGet (callPush st 0 vals) idx with cache := some (identGet (callPush st 0 vals) idx).body }) idx).saved = (identGet (callPush st 0 vals) idx).saved := by
        rw [identGet_set_general]
        split_ifs
        · exact ⟨rfl, rfl⟩
        · rw [hg2]
          exact ⟨rfl, rfl⟩
      constructor
      · intro hj2
        rw [hgj.2]
        exact (hpoint idx).1 hj2
      · intro hj2
        exact sameBinding_trans ⟨hgj.1, hgj.2⟩ ((hpoint idx).2 hj2)
    · have hgj : identGet (identSet { callPush st 0 vals with numargsV := callargs, frames := (2 ^ callargs - 1) :: (callPush st 0 vals).frames } idx { identGet (callPush st 0 vals) idx with cache := some (identGet (callPush st 0 vals) idx).body }) j = identGet (callPush st 0 vals) j := by
        rw [identGet_set_ne _ idx j _ hj, hg2]
      constructor
      · intro hj2
        rw [hgj]
        exact (hpoint j).1 hj2
      · intro hj2
        rw [hgj]
        exact (hpoint j).2 hj2
  · simp only [hca]
    refine ⟨by show (2 ^ callargs - 1) :: (callPush st 0 vals).frames = _; rw [pf], hl2, by show (callPush st 0 vals).numargsV = _; rw [pn], ?_⟩
    intro j
    rw [show identGet { callPush st 0 vals with numargsV := callargs, frames := (2 ^ callargs - 1) :: (callPush st 0 vals).frames } j = identGet (callPush st 0 vals) j from rfl]
    exact ⟨fun hj => (hpoint j).1 hj, fun hj => (hpoint j).2 hj⟩

theorem callExit_inv (st st3 st4 : VMSt) (c oldN : Nat)
    (hc : c ≤ MaxArguments)
    (h3frames : st3.frames = (2 ^ c - 1) :: st.frames)
    (h3len : st3.idents.length = st.idents.length)
    (h3point : ∀ j, (j < c → (identGet st3 j).saved =
        (identGet st j).val :: (identGet st j).saved) ∧
      (c ≤ j → sameBinding (identGet st3 j) (identGet st j)))
    (hinv : VMInv st3 st4) :
    VMInv st (callExit st4 c oldN) := by
  obtain ⟨hft, hsb⟩ := callAlias_restore st st3 st4 c hc h3frames h3point hinv
  obtain ⟨l1, f1, n1, _⟩ := popRange_facts c { st4 with frames := st4.frames.tail } 0
  obtain ⟨l2, f2, n2, _⟩ := popExtraRange_facts (32 - c)
    (popRange { st4 with frames := st4.frames.tail } 0 c) (st4.frames.headD 0) c
  apply vmInv_of_binding
  · show (popExtraRange (popRange { st4 with frames := st4.frames.tail } 0 c)
      (st4.frames.headD 0) c (32 - c)).frames = st.frames
    rw [f2, f1]
    exact hft
  · show (popExtraRange (popRange { st4 with frames := st4.frames.tail } 0 c)
      (st4.frames.headD 0) c (32 - c)).idents.length = st.idents.length
    rw [l2, l1]
    show st4.idents.length = st.idents.length
    rw [hinv.ilen, h3len]
  · intro j
    exact hsb j

/-- Frame and argument-stack discipline of every completed run: over
doargs-free well-formed code, one runcode invocation obeys VMInv relative
to the state it was entered with. -/
theorem runstep_inv (prog : List Nat) (cmds : Nat → Option (List VVal → Option VVal))
    (hwf : wfProg prog) :
    ∀ fuel entry depth st pc args result st' v pc',
      MaxArguments ≤ st.idents.length →
      runstep prog cmds fuel entry depth st pc args result = some (st', v, pc') →
      VMInv st st' := by
  intro fuel
  induction fuel with
  | zero =>
    intro entry depth st pc args result st' v pc' _ h
    simp [runstep] at h
  | succ fuel ih =>
    intro entry depth st pc args result st' v pc' hlen h
    cases entry
    case true =>
      rw [runstep] at h
      rw [runbody.eq_def] at h
      simp only [eq_self_iff_true, if_true, ite_true] at h
      by_cases hdep : MaxRunDepth ≤ depth
      · rw [if_pos hdep] at h
        rcases hskip : skipcodeF prog (fuel + 1) pc 0 with _ | pc2 <;> rw [hskip] at h
        · exact Option.noConfusion h
        · simp only [Option.some.injEq, Prod.mk.injEq] at h
          obtain ⟨h1, -, -⟩ := h
          exact h1 ▸ VMInv.of_eq rfl rfl
      · rw [if_neg hdep] at h
        exact ih false (depth + 1) st pc [] VVal.vnull st' v pc' hlen h
    case false =>
      rw [runstep] at h
      rw [runbody.eq_def] at h
      simp only [Bool.false_eq_true, if_false, ite_false] at h
      have hw := wf_wordAt hwf pc
      set w := wordAt prog pc with hwdef
      by_cases c01 : w % 64 = CODE_START ∨ w % 64 = CODE_OFFSET
      · rw [if_pos c01] at h
        exact ih false depth st (pc + 1) args result st' v pc' hlen h
      rw [if_neg c01] at h
      by_cases cPOP : w % 64 = CODE_POP
      · rw [if_pos cPOP] at h
        rcases args with _ | ⟨a, rest⟩
        · exact Option.noConfusion h
        · exact ih false depth st (pc + 1) rest result st' v pc' hlen h
      rw [if_neg cPOP] at h
      by_cases cENT : w % 64 = CODE_ENTER
      · rw [if_pos cENT] at h
        rcases hrec : runstep prog cmds fuel true depth st (pc + 1) [] VVal.vnull
          with _ | ⟨st2, v2, pc2⟩ <;> rw [hrec] at h
        · exact Option.noConfusion h
        · have i1 := ih true depth st (pc + 1) [] VVal.vnull st2 v2 pc2 hlen hrec
          exact VMInv.trans i1 (ih false depth st2 pc2 (v2 :: args) result st' v pc'
            (by rw [i1.ilen]; exact hlen) h)
      rw [if_neg cENT] at h
      by_cases cENR : w % 64 = CODE_ENTER_RESULT
      · rw [if_pos cENR] at h
        rcases hrec : runstep prog cmds fuel true depth st (pc + 1) [] VVal.vnull
          with _ | ⟨st2, v2, pc2⟩ <;> rw [hrec] at h
        · exact Option.noConfusion h
        · have i1 := ih true depth st (pc + 1) [] VVal.vnull st2 v2 pc2 hlen hrec
          exact VMInv.trans i1 (ih false depth st2 pc2 args v2 st' v pc'
            (by rw [i1.ilen]; exact hlen) h)
      rw [if_neg cENR] at h
      by_cases cEXI : w % 64 = CODE_EXIT
      · rw [if_pos cEXI] at h
        simp only [Option.some.injEq, Prod.mk.injEq] at h
        obtain ⟨h1, -, -⟩ := h
        exact h1 ▸ VMInv.of_eq rfl rfl
      rw [if_neg cEXI] at h
      by_cases cRA : w % 64 = CODE_RESULT_ARG
      · rw [if_pos cRA] at h
        exact ih false depth st (pc + 1) _ VVal.vnull st' v pc' hlen h
      rw [if_neg cRA] at h
      by_cases cVALI : w % 64 = CODE_VALI
      · rw [if_pos cVALI] at h
        by_cases r1 : retOf w = RET_INT
        · rw [if_pos r1] at h
          exact ih false depth st (pc + 1) _ result st' v pc' hlen h
        rw [if_neg r1] at h
        by_cases r2 : retOf w = RET_STR
        · rw [if_pos r2] at h
          exact ih false depth st (pc + 1) _ result st' v pc' hlen h
        rw [if_neg r2] at h
        by_cases r3 : retOf w = 0
        · rw [if_pos r3] at h
          exact ih false depth st (pc + 1) _ result st' v pc' hlen h
        · rw [if_neg r3] at h
          exact Option.noConfusion h
      rw [if_neg cVALI] at h
      by_cases cVAL : w % 64 = CODE_VAL
      · rw [if_pos cVAL] at h
        by_cases r1 : retOf w = RET_INT
        · rw [if_pos r1] at h
          exact ih false depth st (pc + 2) _ result st' v pc' hlen h
        · rw [if_neg r1] at h
          exact Option.noConfusion h
      rw [if_neg cVAL] at h
      by_cases cBLK : w % 64 = CODE_BLOCK
      · rw [if_pos cBLK] at h
        exact ih false depth st (pc + 1 + w / 256) _ result st' v pc' hlen h
      rw [if_neg cBLK] at h
      by_cases cRES : w % 64 = CODE_RESULT
      · rw [if_pos cRES] at h
        rcases args with _ | ⟨a, rest⟩
        · exact Option.noConfusion h
        · exact ih false depth st (pc + 1) rest _ st' v pc' hlen h
      rw [if_neg cRES] at h
      by_cases cCOMV : w % 64 = CODE_COMV
      · rw [if_pos cCOMV] at h
        by_cases hg : args.length < w / 256 % 32
        · rw [if_pos hg] at h
          exact Option.noConfusion h
        rw [if_neg hg] at h
        rcases hcm : cmds (w / 2 ^ 13) with _ | impl <;> rw [hcm] at h
        · exact Option.noConfusion h
        · exact ih false depth st (pc + 1) _ _ st' v pc' hlen h
      rw [if_neg cCOMV] at h
      by_cases cAA : w % 64 = CODE_ALIASARG
      · rw [if_pos cAA] at h
        rcases args with _ | ⟨a, rest⟩
        · exact Option.noConfusion h
        rcases hfr : st.frames with _ | ⟨f, fr⟩ <;> rw [hfr] at h
        · exact Option.noConfusion h
        dsimp only at h
        have hpay : w / 256 < MaxArguments := hw.2.1 cAA
        by_cases hbit : Nat.testBit f (w / 256)
        · rw [if_pos hbit] at h
          have hmid : VMInv st (identSet st (w / 256)
              { identGet st (w / 256) with val := a, cache := none }) :=
            vmInv_inplace st (w / 256) _ (by rw [hfr]; exact hbit) rfl
          exact VMInv.trans hmid (ih false depth _ (pc + 1) rest result st' v pc'
            (by rw [identSet_length]; exact hlen) h)
        · rw [if_neg hbit] at h
          have hmid := vmInv_aliaspush st f fr (w / 256) a hfr hbit hpay
            (by unfold MaxArguments at hpay hlen; omega)
          exact VMInv.trans hmid (ih false depth _ (pc + 1) rest result st' v pc'
            (by rw [show ({ identSet st (w / 256) (push_arg (identGet st (w / 256)) a) with frames := (f ||| 2 ^ (w / 256)) :: fr } : VMSt).idents.length = (identSet st (w / 256) (push_arg (identGet st (w / 256)) a)).idents.length from rfl, identSet_length]; exact hlen) h)
      rw [if_neg cAA] at h
      by_cases cCALL : w % 64 = CODE_CALL ∨ w % 64 = CODE_CALLARG
      · rw [if_pos cCALL] at h
        by_cases hg1 : args.length < w / 256 % 32
        · rw [if_pos hg1] at h
          exact Option.noConfusion h
        rw [if_neg hg1] at h
        by_cases hg2 : w % 64 = CODE_CALL ∧ (identGet st (w / 2 ^ 13)).unknown = true
        · rw [if_pos hg2] at h
          exact VMInv.trans
            (@VMInv.of_eq st { st with diags := Diag.unknownCommand :: st.diags } rfl rfl)
            (ih false depth { st with diags := Diag.unknownCommand :: st.diags } (pc + 1) _ _
              st' v pc' hlen h)
        rw [if_neg hg2] at h
        by_cases hg3 : w % 64 = CODE_CALLARG ∧ ¬ Nat.testBit (st.frames.headD 0) (w / 2 ^ 13)
        · rw [if_pos hg3] at h
          exact ih false depth st (pc + 1) _ _ st' v pc' hlen h
        rw [if_neg hg3] at h
        rcases hbody : runstep prog cmds fuel true depth
            (callEnter st ((args.take (w / 256 % 32)).reverse) (w / 256 % 32) (w / 2 ^ 13)).1
            ((callEnter st ((args.take (w / 256 % 32)).reverse) (w / 256 % 32) (w / 2 ^ 13)).2.1 + 1)
            [] VVal.vnull with _ | ⟨st4, res, pcx⟩ <;> rw [hbody] at h
        · exact Option.noConfusion h
        · have hclen : w / 256 % 32 ≤ MaxArguments := hw.2.2 cCALL
          have hvlen : ((args.take (w / 256 % 32)).reverse).length = w / 256 % 32 := by
            rw [List.length_reverse, List.length_take]
            omega
          obtain ⟨ef, el, en, ep⟩ := callEnter_facts st ((args.take (w / 256 % 32)).reverse)
            (w / 256 % 32) (w / 2 ^ 13) hlen hvlen hclen
          have i1 := ih true depth _ _ [] VVal.vnull st4 res pcx (by rw [el]; exact hlen) hbody
          have hx := callExit_inv st _ st4 (w / 256 % 32)
            (callEnter st ((args.take (w / 256 % 32)).reverse) (w / 256 % 32) (w / 2 ^ 13)).2.2
            hclen ef el ep i1
          exact VMInv.trans hx (ih false depth _ (pc + 1) _ _ st' v pc'
            (by rw [hx.ilen]; exact hlen) h)
      rw [if_neg cCALL] at h
      by_cases cDO : w % 64 = CODE_DO ∨ w % 64 = CODE_DOARGS
      · rw [if_pos cDO] at h
        rw [if_neg (by intro hx2; exact hw.1 hx2.1)] at h
        rcases args with _ | ⟨a, rest⟩
        · exact Option.noConfusion h
        rcases a with _ | i | s2 | p
        · exact Option.noConfusion h
        · exact Option.noConfusion h
        · exact Option.noConfusion h
        · dsimp only at h
          rcases hbody : runstep prog cmds fuel true depth st p [] VVal.vnull
            with _ | ⟨st2, res, pcx⟩ <;> rw [hbody] at h
          · exact Option.noConfusion h
          · have i1 := ih true depth st p [] VVal.vnull st2 res pcx hlen hbody
            exact VMInv.trans i1 (ih false depth st2 (pc + 1) rest _ st' v pc'
              (by rw [i1.ilen]; exact hlen) h)
      rw [if_neg cDO] at h
      by_cases cJ : w % 64 = CODE_JUMP
      · rw [if_pos cJ] at h
        exact ih false depth st (pc + 1 + w / 256) args result st' v pc' hlen h
      rw [if_neg cJ] at h
      by_cases cJT : w % 64 = CODE_JUMP_TRUE ∨ w % 64 = CODE_JUMP_FALSE
      · rw [if_pos cJT] at h
        rcases args with _ | ⟨a, rest⟩
        · exact Option.noConfusion h
        · exact ih false depth st _ rest result st' v pc' hlen h
      rw [if_neg cJT] at h
      by_cases cJR : w % 64 = CODE_JUMP_RESULT_TRUE ∨ w % 64 = CODE_JUMP_RESULT_FALSE
      · rw [if_pos cJR] at h
        rcases args with _ | ⟨a, rest⟩
        · exact Option.noConfusion h
        rcases a with _ | i | s2 | p
        · exact ih false depth st _ rest _ st' v pc' hlen h
        · exact ih false depth st _ rest _ st' v pc' hlen h
        · exact ih false depth st _ rest _ st' v pc' hlen h
        · dsimp only at h
          rcases hbody : runstep prog cmds fuel true depth st p [] VVal.vnull
            with _ | ⟨st2, res, pcx⟩ <;> rw [hbody] at h
          · exact Option.noConfusion h
          · have i1 := ih true depth st p [] VVal.vnull st2 res pcx hlen hbody
            exact VMInv.trans i1 (ih false depth st2 _ rest res st' v pc'
              (by rw [i1.ilen]; exact hlen) h)
      · rw [if_neg cJR] at h
        exact Option.noConfusion h

/-- A run dispatched at an EXIT word terminates at once with the state
unchanged (runcode returns &code[i] with result forced, touching nothing). -/
theorem runstep_exit_state (prog : List Nat) (cmds : Nat → Option (List VVal → Option VVal))
    (fuel depth : Nat) (st : VMSt) (pc : Nat) (args : List VVal) (result : VVal)
    (st' : VMSt) (v : VVal) (pc' : Nat)
    (hexit : wordAt prog pc % 256 = CODE_EXIT)
    (h : runstep prog cmds fuel false depth st pc args result = some (st', v, pc')) :
    st' = st := by
  rcases fuel with _ | fuel
  · simp [runstep] at h
  rw [runstep] at h
  rw [runbody.eq_def] at h
  simp only [Bool.false_eq_true, if_false, ite_false] at h
  set w := wordAt prog pc with hwdef
  have h64 : w % 64 = CODE_EXIT := by
    rw [← Nat.mod_mod_of_dvd w (by norm_num : (64 : Nat) ∣ 256), hexit]
    decide
  have hne : ∀ k : Nat, k ≠ 9 → ¬ w % 64 = k := by
    intro k hk hx
    rw [hx] at h64
    exact hk h64
  rw [if_neg (fun hx => hx.elim (hne CODE_START (by decide)) (hne CODE_OFFSET (by decide)))] at h
  rw [if_neg (hne CODE_POP (by decide))] at h
  rw [if_neg (hne CODE_ENTER (by decide))] at h
  rw [if_neg (hne CODE_ENTER_RESULT (by decide))] at h
  rw [if_pos h64] at h
  simp only [Option.some.injEq, Prod.mk.injEq] at h
  exact h.1.symm

/-- C4 (amended): an alias-call instruction (CODE_CALL or CODE_CALLARG)
whose enclosing block exits right after the call restores every identifier
binding on return, provided the code is well formed and doargs-free: the
whole frame chain - the caller's usedargs bitset included - is exactly as
before the call, and every identifier (the argK aliases in particular,
whether or not their bit was set) carries its pre-call value and saved
chain. The compiled-code cache is NOT restored: pop_arg runs clean_code,
so a reassigned argument returns with its cache cleared. -/
theorem c4_callalias_amended (prog : List Nat)
    (cmds : Nat → Option (List VVal → Option VVal))
    (fuel depth : Nat) (st : VMSt) (pc : Nat) (args : List VVal) (result : VVal)
    (st' : VMSt) (v : VVal) (pc' : Nat)
    (hwf : wfProg prog)
    (hlen : MaxArguments ≤ st.idents.length)
    (hop : wordAt prog pc % 64 = CODE_CALL ∨ wordAt prog pc % 64 = CODE_CALLARG)
    (hexit : wordAt prog (pc + 1) % 256 = CODE_EXIT)
    (h : runstep prog cmds fuel false depth st pc args result = some (st', v, pc')) :
    st'.frames = st.frames ∧
    ∀ i, (identGet st' i).val = (identGet st i).val ∧
      (identGet st' i).saved = (identGet st i).saved := by
  rcases fuel with _ | fuel
  · simp [runstep] at h
  rw [runstep] at h
  rw [runbody.eq_def] at h
  simp only [Bool.false_eq_true, if_false, ite_false] at h
  set w := wordAt prog pc with hwdef
  have hne : ∀ k : Nat, k ≠ 51 → k ≠ 53 → ¬ w % 64 = k := by
    intro k h1 h2 hk
    rcases hop with h3 | h3
    · rw [hk] at h3
      exact h1 h3
    · rw [hk] at h3
      exact h2 h3
  rw [if_neg (fun hx => hx.elim (hne CODE_START (by decide) (by decide))
    (hne CODE_OFFSET (by decide) (by decide)))] at h
  rw [if_neg (hne CODE_POP (by decide) (by decide))] at h
  rw [if_neg (hne CODE_ENTER (by decide) (by decide))] at h
  rw [if_neg (hne CODE_ENTER_RESULT (by decide) (by decide))] at h
  rw [if_neg (hne CODE_EXIT (by decide) (by decide))] at h
  rw [if_neg (hne CODE_RESULT_ARG (by decide) (by decide))] at h
  rw [if_neg (hne CODE_VALI (by decide) (by decide))] at h
  rw [if_neg (hne CODE_VAL (by decide) (by decide))] at h
  rw [if_neg (hne CODE_BLOCK (by decide) (by decide))] at h
  rw [if_neg (hne CODE_RESULT (by decide) (by decide))] at h
  rw [if_neg (hne CODE_COMV (by decide) (by decide))] at h
  rw [if_neg (hne CODE_ALIASARG (by decide) (by decide))] at h
  rw [if_pos hop] at h
  by_cases hg1 : args.length < w / 256 % 32
  · rw [if_pos hg1] at h
    exact Option.noConfusion h
  rw [if_neg hg1] at h
  by_cases hg2 : w % 64 = CODE_CALL ∧ (identGet st (w / 2 ^ 13)).unknown = true
  · rw [if_pos hg2] at h
    have hst := runstep_exit_state prog cmds fuel depth
      { st with diags := Diag.unknownCommand :: st.diags } (pc + 1)
      (args.drop (w / 256 % 32)) (tvForce VVal.vnull (retOf w)) st' v pc' hexit h
    rw [hst]
    exact ⟨rfl, fun i => ⟨rfl, rfl⟩⟩
  rw [if_neg hg2] at h
  by_cases hg3 : w % 64 = CODE_CALLARG ∧ ¬ Nat.testBit (st.frames.headD 0) (w / 2 ^ 13)
  · rw [if_pos hg3] at h
    have hst := runstep_exit_state prog cmds fuel depth st (pc + 1)
      (args.drop (w / 256 % 32)) (tvForce VVal.vnull (retOf w)) st' v pc' hexit h
    rw [hst]
    exact ⟨rfl, fun i => ⟨rfl, rfl⟩⟩
  rw [if_neg hg3] at h
  rcases hbody : runstep prog cmds fuel true depth
      (callEnter st ((args.take (w / 256 % 32)).reverse) (w / 256 % 32) (w / 2 ^ 13)).1
      ((callEnter st ((args.take (w / 256 % 32)).reverse) (w / 256 % 32) (w / 2 ^ 13)).2.1 + 1)
      [] VVal.vnull with _ | ⟨st4, res, pcx⟩ <;> rw [hbody] at h
  · exact Option.noConfusion h
  · have hwf1 : wfWord w := by
      rw [hwdef]
      exact wf_wordAt hwf pc
    have hclen : w / 256 % 32 ≤ MaxArguments := hwf1.2.2 hop
    have hvlen : ((args.take (w / 256 % 32)).reverse).length = w / 256 % 32 := by
      rw [List.length_reverse, List.length_take]
      omega
    obtain ⟨ef, el, en, ep⟩ := callEnter_facts st ((args.take (w / 256 % 32)).reverse)
      (w / 256 % 32) (w / 2 ^ 13) hlen hvlen hclen
    have i1 := runstep_inv prog cmds hwf fuel true depth
      (callEnter st ((args.take (w / 256 % 32)).reverse) (w / 256 % 32) (w / 2 ^ 13)).1
      ((callEnter st ((args.take (w / 256 % 32)).reverse) (w / 256 % 32) (w / 2 ^ 13)).2.1 + 1)
      [] VVal.vnull st4 res pcx (by rw [el]; exact hlen) hbody
    obtain ⟨hft, hsb⟩ := callAlias_restore st
      (callEnter st ((args.take (w / 256 % 32)).reverse) (w / 256 % 32) (w / 2 ^ 13)).1 st4
      (w / 256 % 32) hclen ef ep i1
    have hst := runstep_exit_state prog cmds fuel depth
      (callExit st4 (w / 256 % 32)
        (callEnter st ((args.take (w / 256 % 32)).reverse) (w / 256 % 32) (w / 2 ^ 13)).2.2)
      (pc + 1) (args.drop (w / 256 % 32)) (tvForce res (retOf w)) st' v pc' hexit h
    obtain ⟨l1, f1, n1, -⟩ := popRange_facts (w / 256 % 32)
      { st4 with frames := st4.frames.tail } 0
    obtain ⟨l2, f2, n2, -⟩ := popExtraRange_facts (32 - (w / 256 % 32))
      (popRange { st4 with frames := st4.frames.tail } 0 (w / 256 % 32)) (st4.frames.headD 0)
      (w / 256 % 32)
    rw [hst]
    constructor
    · show (popExtraRange (popRange { st4 with frames := st4.frames.tail } 0 (w / 256 % 32))
        (st4.frames.headD 0) (w / 256 % 32) (32 - (w / 256 % 32))).frames = st.frames
      rw [f2, f1]
      exact hft
    · intro i
      obtain ⟨hv, hs⟩ := hsb i
      exact ⟨hv, hs⟩

/-- A doargs-free variant of the alias-call setup: word 1 is CODE_CALL of
the alias at identmap index 25 with zero call arguments, word 2 exits, and
words 3..6 hold the alias body "arg1 = 9" (START; VALI str "9"; ALIASARG
arg1; EXIT). -/
def progCall : List Nat :=
  [0, 204851, 9, 256, 14796, 50, 9]

/-- Witness for c4_callalias_amended: calling the "arg1 = 9" alias from the
c4st caller state - arg1 bound to 7 with its bit set - returns with the
frame chain and every binding exactly restored (the body claimed arg1 in
its own frame, so the pop loop put the 7 back). -/
theorem c4_callalias_amended_witness :
    runstep progCall (fun _ => none) 100 false 0 c4st 1 [] VVal.vnull =
      some (c4st, VVal.vnull, 3) ∧
    ((c4st : VMSt).frames = c4st.frames ∧
      ∀ i, (identGet c4st i).val = (identGet c4st i).val ∧
        (identGet c4st i).saved = (identGet c4st i).saved) := by
  refine ⟨by decide, ?_⟩
  exact c4_callalias_amended progCall (fun _ => none) 100 0 c4st 1 [] VVal.vnull
    c4st VVal.vnull 3 (by unfold wfProg wfWord; decide) (by decide) (Or.inl (by decide))
    (by decide) (by decide)
